import Mathlib

/-!
# Verification of the minialign core (`src/minialign.c`) against its specification

This file shallowly embeds the parts of `minialign.c` that the specification's
claims are about:

* the minimizer sketcher `mm_sketch` / `mm_sketch_cap` (sketch.c),
* the Robinhood hash table `kh_t` (hash.c),
* the two-stage index: `mm_idx_get`, `mm_idx_count_occ`, `mm_idx_build_hash`,
  the occurrence thresholds of `mm_idx_gen`, and `mm_idx_dump` / `mm_idx_load`,
* the seed expansion `mm_expand`,
* the id-ordered pipeline drains (`mm_idx_drain` / `mm_align_drain`),
* the mapping-quality clip of `mm_post_map`,
* the `mm_align_seq` unmappable-query guard and the `mm_opt_kmer` /
  `mm_opt_window` parameter validators.

Machine integers are modelled as `Nat` with explicit reduction mod `2^64`
(resp. `2^32`) at the points where the C code can wrap.  Fallible code returns
`Option`.  `double` values are modelled as `ℚ` where only ring operations and
comparisons occur, and as `ℝ` where `log10` is involved.  All definitions are
executable except the `ℝ`-valued mapq formulas.

The file is organised as: all definitions first, then all theorems.
-/

namespace Minialign

/-! ## 64-bit word helpers -/

/-- `2^64`, the modulus of C `uint64_t` arithmetic. -/
def U64 : Nat := 2 ^ 64

/-- `2^32`, the modulus of C `uint32_t` arithmetic. -/
def U32 : Nat := 2 ^ 32

/-- `UINT64_MAX`, used by the code as the empty-slot / initial-minimum marker. -/
def UMAX : Nat := U64 - 1

/-- C `uint64_t` subtraction (wrapping). Both arguments are assumed `< 2^64`. -/
def u64sub (a b : Nat) : Nat := (a + (U64 - b % U64)) % U64

/-- C `uint32_t` subtraction (wrapping). Both arguments are assumed `< 2^32`. -/
def u32sub (a b : Nat) : Nat := (a + (U32 - b % U32)) % U32

/-! ## Parameter validation (`mm_opt_kmer`, `mm_opt_window`, minialign.c:6000-6007)

`mm_opt_kmer` runs `oassert(o, o->c.k > 1 && o->c.k < 32, ...)`; `oassert`
logs an error and bumps the option parser's error counter when the condition
is false, which makes the whole run fail with an invalid-parameter error.
`mm_opt_window` is identical with `w` in place of `k`.  The functions below
return `true` iff the assertion passes. -/

/-- `mm_opt_kmer`'s acceptance condition: `k > 1 && k < 32`. -/
def mmOptKmerOk (k : Nat) : Bool := 1 < k && k < 32

/-- `mm_opt_window`'s acceptance condition: `w > 1 && w < 32`. -/
def mmOptWindowOk (w : Nat) : Bool := 1 < w && w < 32

/-- The validation outcome for a `(w, k)` pair: the construction-time
parameter check fails iff either validator's assertion fails. -/
def mmOptParamInvalid (w k : Nat) : Bool := !(mmOptWindowOk w) || !(mmOptKmerOk k)

/-- The claim's version of the failure condition:
`w == 0 || k == 0 || w > 31 || k > 31`. -/
def specParamInvalid (w k : Nat) : Bool := w == 0 || k == 0 || 31 < w || 31 < k

/-! ## `mm_align_seq` unmappable-query guard (minialign.c:4427-4449)

`mm_align_seq` starts with
`if(l_seq < self->mi.k || l_seq * self->mcoef < (double)self->min_score) return NULL;`
and only afterwards clears the buffers and runs the seed-chain-extend loop.
The loop body is irrelevant to claim C10 and is abstracted as the argument
`rest`; the guard itself is translated literally.  `mcoef` is a `double`;
every `double` value is a rational number, so it is modelled as `ℚ` (the
single product `l_seq * mcoef` is computed exactly here, whereas the C code
rounds it to the nearest `double`). -/

/-- `mm_align_seq`, with everything after the unmappable-query guard
abstracted as `rest`.  Returns `none` exactly when the C function returns
`NULL` at the guard. -/
def mmAlignSeq (k : Nat) (mcoef : ℚ) (min_score : Nat)
    (l_seq : Nat) (rest : Unit → Option α) : Option α :=
  if l_seq < k ∨ (l_seq : ℚ) * mcoef < (min_score : ℚ) then none else rest ()

/-! ## Mapping quality (`MAPQ_COEF`, `_clip`, `mm_post_map`, minialign.c:4175-4325)

`#define MAPQ_DEC 4`, `#define MAPQ_COEF (1<<MAPQ_DEC)`,
`#define _clip(x) MAX2(0, MIN2(((uint32_t)(x)), 60 * MAPQ_COEF))`.

`mm_post_map` stores, for primary/supplementary bins,
`_clip(-10.0 * MAPQ_COEF * log10(pe))` with `pe = 1/(ulen² + 1)`, and for
secondary bins
`_clip(-10.0 * MAPQ_COEF * log10(1 - tpe·(res[i].score - lsc + 1)/tsc))`.
The `double` computation is modelled over `ℝ` with exact `log10`
(`Real.logb 10`); the `(uint32_t)` cast of a nonnegative `double` is
truncation, modelled by `Nat.floor`.

Scores are stored offset-encoded: `#define _ofs(x) ((int32_t)0x40000000 -
(int32_t)(x))` (minialign.c:3344) and `res[eid].score = _ofs(...)`
(minialign.c:3860), so ascending sorts give descending actual scores.  In
`mm_post_map` the statistics `usc`, `lsc`, `tsc` (minialign.c:4282-4284)
and the primary `score` (minialign.c:4292) are all decoded through
`_ofs(res[i].score)`, but the secondary-bin numerator at minialign.c:4321
uses the raw stored `res[i].score`.  The `log10` argument of the secondary
formula is modelled over `ℚ` (exact for these inputs) so its sign is
machine-checkable. -/

/-- `_clip`: `MAX2(0, MIN2((uint32_t)x, 60 * MAPQ_COEF))` for a nonnegative
`double` argument (the cast is `Nat.floor`). -/
noncomputable def mapqClip (x : ℝ) : Nat := max 0 (min ⌊x⌋₊ (60 * 16))

/-- The unclipped primary/supplementary mapq value
`-10 · MAPQ_COEF · log10(1/(ulen² + 1))`. -/
noncomputable def mmMapqValPrimary (ulen : ℝ) : ℝ :=
  -10 * 16 * Real.logb 10 (1 / (ulen * ulen + 1))

/-- The stored primary/supplementary fixed-point mapq. -/
noncomputable def mmMapqPrimary (ulen : ℝ) : Nat := mapqClip (mmMapqValPrimary ulen)

/-- The unclipped secondary mapq value
`-10 · MAPQ_COEF · log10(1 - tpe·(score - lsc + 1)/tsc)`. -/
noncomputable def mmMapqValSecondary (tpe score lsc tsc : ℝ) : ℝ :=
  -10 * 16 * Real.logb 10 (1 - tpe * (score - lsc + 1) / tsc)

/-- The stored secondary fixed-point mapq. -/
noncomputable def mmMapqSecondary (tpe score lsc tsc : ℝ) : Nat :=
  mapqClip (mmMapqValSecondary tpe score lsc tsc)

/-- The `_ofs` macro (minialign.c:3344): `(int32_t)0x40000000 - (int32_t)x`
(self-inverse; all values involved fit in `int32`). -/
def mmOfs (x : ℤ) : ℤ := 0x40000000 - x

/-- The `lsc` accumulation of `mm_post_map` (minialign.c:4279-4287) over the
stored secondary-bin scores: `int64_t lsc = INT64_MAX` folded with
`MIN2(lsc, _ofs(res[i].score))`, then `lsc = (lsc == INT32_MAX) ? 0 :
lsc`. -/
def mmPostMapLsc (enc : List ℤ) : ℤ :=
  let lsc := enc.foldl (fun a e => min a (mmOfs e)) (2 ^ 63 - 1)
  if lsc = 2 ^ 31 - 1 then 0 else lsc

/-- The `tsc` accumulation of `mm_post_map` (minialign.c:4284): the sum of
the DECODED secondary scores `_ofs(res[i].score)`. -/
def mmPostMapTsc (enc : List ℤ) : ℤ := (enc.map mmOfs).sum

/-- `ulen` for a primary bin (minialign.c:4304):
`ec * MAX2((int64_t)score - usc, 0)` with `score` the decoded primary score
and `usc` the largest decoded secondary score. -/
def mmUlen (ec : ℚ) (score usc : ℤ) : ℚ := ec * ((max (score - usc) 0 : ℤ) : ℚ)

/-- `pe` for a primary bin (minialign.c:4304): `1/(ulen² + 1)`. -/
def mmPePrimary (ulen : ℚ) : ℚ := 1 / (ulen * ulen + 1)

/-- `tpe` (minialign.c:4316): `MIN2(1.0 - tpc, 1.0)` where
`tpc = Π (1 - pe)` over the primary/supplementary bins
(minialign.c:4306). -/
def mmTpe (pes : List ℚ) : ℚ := min (1 - (pes.map (fun p => 1 - p)).prod) 1

/-- The argument handed to `log10` for a secondary bin exactly as written
at minialign.c:4321: `1.0 - tpe * (double)(res[i].score - lsc + 1) /
(double)tsc`, where `res[i].score` is the RAW stored (offset-encoded)
score while `lsc` and `tsc` are decoded. -/
def mmMapqSecondaryArg (tpe : ℚ) (enc lsc tsc : ℤ) : ℚ :=
  1 - tpe * ((enc : ℚ) - (lsc : ℚ) + 1) / (tsc : ℚ)

/-- The same formula with the score decoded through `_ofs`, as the spec
describes the secondary mapq (the score that `usc`/`lsc`/`tsc` and the
primary branch use). -/
def mmMapqSecondaryArgSpec (tpe : ℚ) (enc lsc tsc : ℤ) : ℚ :=
  1 - tpe * ((mmOfs enc : ℚ) - (lsc : ℚ) + 1) / (tsc : ℚ)

/-! ## Seed expansion (`mm_expand`, minialign.c:3419-3446)

A posting as returned by `mm_idx_get` is a `v2u32_t` with `u32[0]` the
reference position and `u32[1]` the reference id with the strand in bit 0.
`mm_expand` iterates over the posting array, skips postings with
`rid < self->qid` (the all-versus-all filter), and appends one seed per
remaining posting:

    rmask = -(rid & 0x01);
    _rs = rs + (k & rmask); _qs = qs ^ rmask;
    seed = { .upos = _u(_rs,_qs), .vpos = _v(_rs,_qs),
             .rid = rid>>1, .lid = INT32_MAX }

with `_u(x,y) = ((x<<1) - y) + 0x40000000` and `_v(x,y) = ((y<<1) - x) +
0x40000000` in `uint32_t` arithmetic (map.c macro block at lines 3344-3351). -/

/-- A posting (`v2u32_t`): forward-strand position and `rid<<1|strand`. -/
structure Posting where
  pos : Nat
  rid : Nat
  deriving Repr, DecidableEq

/-- A seed (`mm_seed_t`): `(upos, rid, vpos, lid)`, all `uint32_t`. -/
structure MmSeed where
  upos : Nat
  rid : Nat
  vpos : Nat
  lid : Nat
  deriving Repr, DecidableEq

/-- The seed built by one iteration of `mm_expand`'s loop body. -/
def mmExpandSeed (k qs : Nat) (p : Posting) : MmSeed :=
  let rmask : Nat := if p.rid % 2 == 1 then U32 - 1 else 0
  let rs' : Nat := (p.pos + (k &&& rmask)) % U32
  let qs' : Nat := qs ^^^ rmask
  { upos := (u32sub ((2 * rs') % U32) qs' + 0x40000000) % U32,
    vpos := (u32sub ((2 * qs') % U32) rs' + 0x40000000) % U32,
    rid := p.rid / 2,
    lid := 0x7fffffff }

/-- `mm_expand`: fold over the posting array, appending seeds to the arena
`acc` (the thread-local `self->seed` vector), skipping the lower triangle
of the all-versus-all filter. -/
def mmExpand (k qid qs : Nat) (acc : List MmSeed) : List Posting → List MmSeed
  | [] => acc
  | p :: rest =>
    if p.rid < qid then mmExpand k qid qs acc rest
    else mmExpand k qid qs (acc ++ [mmExpandSeed k qs p]) rest

/-- Claim C6's description of one seed: with strand bit `s`,
`r' = r + k·[s = rev]` and `q' = q XOR (-s)` as 32-bit values, the seed is
`(u, v, rid, INT32_MAX)` with `u = 2·r' − q' + 2^30` and
`v = 2·q' − r' + 2^30` (32-bit wrapping arithmetic, stated over `ℤ`). -/
def mmExpandSeedSpec (k qs : Nat) (p : Posting) : MmSeed :=
  let s : Nat := p.rid % 2
  let r' : Nat := (p.pos + k * s) % U32
  let q' : Nat := qs ^^^ ((U32 - s) % U32)
  { upos := (((2 * r' : ℤ) - q' + 2 ^ 30) % (2 ^ 32 : ℤ)).toNat,
    vpos := (((2 * q' : ℤ) - r' + 2 ^ 30) % (2 ^ 32 : ℤ)).toNat,
    rid := p.rid / 2,
    lid := 2 ^ 31 - 1 }

/-! ## Occurrence counting and thresholds
(`mm_idx_count_occ` minialign.c:2867-2898, `mm_idx_gen` minialign.c:2980-2987)

`mm_idx_count_occ` radix-sorts each bucket's minimizer array by
`(hrem, pos)` and then walks it once, appending the length of every run of
equal `hrem` keys to the per-thread `cnt` vector (`n` starts at 1 for
`arr[0]`, is pushed and reset at each key boundary, and the final run is
pushed after the loop).  `mm_idx_gen` concatenates the per-thread vectors
and computes, for each user fraction `frq[i]`,

    occ[i] = frq[i] <= 0.0 ? UINT32_MAX
           : ks_ksmall_uint32_t(cnt.n, cnt.a, (uint32_t)((1.0 - frq[i]) * cnt.n)) + 1

The `double` fractions are modelled as `ℚ`; the `uint32_t` cast of the
nonnegative product is `Int.floor`. -/

/-- The run-length loop of `mm_idx_count_occ`: `ph` is the previous key,
`n` the length of the current run. -/
def countRunsGo (ph n : Nat) : List Nat → List Nat
  | [] => [n]
  | x :: rest => if ph != x then n :: countRunsGo x 1 rest else countRunsGo x (n + 1) rest

/-- `mm_idx_count_occ`'s occurrence histogram for one bucket: the run
lengths of the sorted key list (empty bucket contributes nothing). -/
def mmIdxCountOcc : List Nat → List Nat
  | [] => []
  | ph :: rest => countRunsGo ph 1 rest

/-- Modelled from the spec: `ks_ksmall_uint32_t` comes from the vendored
klib `ksort.h`, which is not under `src/`; per the spec's "order statistic"
description and klib's documented behaviour it returns the `kk`-th smallest
element of the array (0-based), i.e. element `kk` of the sorted array. -/
def ksKsmall (a : List Nat) (kk : Nat) : Nat := (a.insertionSort (· ≤ ·)).getD kk 0

/-- The occurrence thresholds computed by `mm_idx_gen` from the
concatenated histogram `cnt` and the user fractions `frq`. -/
def mmIdxOcc (cnt : List Nat) (frq : List ℚ) : List Nat :=
  frq.map fun f =>
    if f ≤ 0 then U32 - 1
    else ksKsmall cnt (⌊(1 - f) * (cnt.length : ℚ)⌋).toNat + 1

/-- Claim C5's version of the thresholds: the `⌈(1 − f)·n_keys⌉`-th order
statistic (1-based) plus 1. -/
def specIdxOcc (cnt : List Nat) (frq : List ℚ) : List Nat :=
  frq.map fun f => ksKsmall cnt (⌈(1 - f) * (cnt.length : ℚ)⌉ - 1).toNat + 1

/-! ## Order-preserving drains
(`mm_idx_drain` minialign.c:2848-2861, `mm_align_drain` minialign.c:4632-4645)

Both drains have the same shape: each incoming packet `s` (carrying the id
assigned by the source, `s->id = icnt++`) is pushed onto the heap `hq`
keyed by id, and then

    while(hq.n > 1 && hq.a[1].u64[0] == ocnt) { ocnt++; pop and process; }

hands consecutive-id packets to the drain body (`mm_idx_drain_intl` /
`mm_align_drain_intl`). -/

/-- Heap ordering: compare packets by their id. -/
def hqKeyLE (a b : Nat × α) : Prop := a.1 ≤ b.1

instance : DecidableRel (hqKeyLE (α := α)) := fun a b => Nat.decLe a.1 b.1

instance : IsTotal (Nat × α) hqKeyLE := ⟨fun a b => Nat.le_total a.1 b.1⟩

instance : IsTrans (Nat × α) hqKeyLE := ⟨fun _ _ _ => Nat.le_trans⟩

/-- Modelled from the spec: `kv_hq_push` lives in the vendored `kvec.h`,
which is not under `src/`.  Per the spec ("the drain pushes items to a
min-heap keyed by `id` and releases them strictly in order") the heap is
modelled as a list kept sorted by id; a push is an ordered insertion and a
pop removes the head, which is a minimal element. -/
def hqPush (x : Nat × α) (h : List (Nat × α)) : List (Nat × α) :=
  List.orderedInsert hqKeyLE x h

/-- The drain's release loop: pop while the heap minimum equals `ocnt`,
incrementing `ocnt` per pop.  Returns the remaining heap, the new `ocnt`,
and the packets handed to the drain body, in order. -/
def drainFlush : List (Nat × α) → Nat → List (Nat × α) × Nat × List (Nat × α)
  | [], ocnt => ([], ocnt, [])
  | x :: rest, ocnt =>
    if x.1 = ocnt then
      let r := drainFlush rest (ocnt + 1)
      (r.1, r.2.1, x :: r.2.2)
    else (x :: rest, ocnt, [])

/-- Drain state: the pending heap, the next expected id `ocnt`, and the
packets handed to the drain body so far (in order). -/
structure DrainSt (α : Type) where
  hq : List (Nat × α)
  ocnt : Nat
  out : List (Nat × α)

/-- One call of `mm_idx_drain` / `mm_align_drain` on one packet. -/
def mmDrainStep (st : DrainSt α) (pkt : Nat × α) : DrainSt α :=
  let h := hqPush pkt st.hq
  let r := drainFlush h st.ocnt
  ⟨r.1, r.2.1, st.out ++ r.2.2⟩

/-- A whole run of the drain over the packet completion order `pkts`. -/
def mmDrainRun (pkts : List (Nat × α)) : DrainSt α :=
  pkts.foldl mmDrainStep ⟨[], 0, []⟩

/-- Invariant of the drain: the emitted ids are exactly `0..ocnt-1` in
order, the heap is sorted by id, heap ids are all beyond `ocnt`, and
emitted ++ pending ++ not-yet-arrived packets are the whole input. -/
def DrainInv (n : Nat) (st : DrainSt α) (rest : List (Nat × α)) : Prop :=
  st.out.map Prod.fst = List.range st.ocnt ∧
  st.hq.Sorted hqKeyLE ∧
  ((st.out ++ st.hq).map Prod.fst ++ rest.map Prod.fst).Perm (List.range n) ∧
  ∀ y ∈ st.hq, st.ocnt < y.1

/-! ## The Robinhood hash table (`kh_t`, hash.c, minialign.c:341-643)

`kh_t` is a 64-bit-key / 64-bit-value open-addressed table.  A slot's key
`UINT64_MAX` means *empty*, `UINT64_MAX - 1` means *moved* (used while
rehashing in `kh_extend`), anything else is occupied (`k + 2 >= 2` in
`uint64_t` arithmetic tests "occupied").  The cell array `a` is modelled as
a `List (Nat × Nat)` of (key, value) pairs; `&`-masking by `mask = 2^s − 1`
is written `% (mask + 1)`.  The C probe loops have no explicit bound (they
rely on the table containing an empty slot); the model recurses on a fuel
argument that exceeds the table size, which the correctness invariant shows
is never exhausted. -/

/-- The "moved" marker key `UINT64_MAX - 1`. -/
def KMOVED : Nat := U64 - 2

/-- `k + 2 >= 2` in `uint64_t` arithmetic: the slot key is occupied
(neither empty `UINT64_MAX` nor moved `UINT64_MAX - 1`). -/
def khOccupied (k : Nat) : Bool := k < KMOVED

/-- The table object: `mask` (in-use size − 1), `max` (allocated size),
`cnt` (occupancy), `ub` (grow threshold), and the cell array. -/
structure KhT where
  mask : Nat
  max : Nat
  cnt : Nat
  ub : Nat
  a : List (Nat × Nat)
  deriving Repr, DecidableEq

/-- Fuel-driven power-of-two roundup: double `acc` until it reaches `n`. -/
def pow2ceilGo : Nat → Nat → Nat → Nat
  | 0, acc, _ => acc
  | fuel + 1, acc, n => if n ≤ acc then acc else pow2ceilGo fuel (2 * acc) n

/-- `kh_init_static`'s size roundup:
`size = 0x8000000000000000 >> (lzcnt(size - 1) - 1)` is the least power of
two `≥ size0`, and the result is clamped below by `KH_SIZE = 256`. -/
def khInitSize (size0 : Nat) : Nat :=
  max 256 (pow2ceilGo size0 1 size0)

/-- `kh_init_static`: a fresh table of `khInitSize size0` slots, all cells
`(UINT64_MAX, UINT64_MAX)`, `ub = size * KH_THRESH` with `KH_THRESH = 0.4`
(the `double` product truncates to `2·size/5` for every power-of-two size
arising here). -/
def khInitStatic (size0 : Nat) : KhT :=
  let size := khInitSize size0
  { mask := size - 1, max := size, cnt := 0, ub := 2 * size / 5,
    a := List.replicate size (UMAX, UMAX) }

/-- `_poll_bucket`: walk from slot `i` with (signed) budget `b`; stop at the
first slot whose key `k1` satisfies `b ≤ (k1 & mask) + (k1 + 2 < 2)`
(always true for empty and moved slots); on wrapping past slot `mask`,
decrease `b` by the table size.  Returns the stop slot and its key. -/
def khPollGo (a : List (Nat × Nat)) (mask : Nat) : Nat → Int → Nat → Nat × Nat
  | 0, _, i => (i, (a.getD i (UMAX, UMAX)).1)
  | fuel + 1, b, i =>
    let k1 := (a.getD i (UMAX, UMAX)).1
    if b ≤ (k1 % (mask + 1) : Nat) + (if khOccupied k1 then 0 else 1) then (i, k1)
    else
      khPollGo a mask fuel (b - (if i = mask then (mask : Int) + 1 else 0))
        ((i + 1) % (mask + 1))

/-- The Robinhood displacement loop of `kh_allocate`: the poll has stopped
at slot `i` whose key is `k1`, and `(k0, v0)` is pending to be written
there.  If `i` is occupied, its occupant is carried forward to the next
poll stop.  (The C code writes the key at the stop and the value one
iteration later; no probe reads values, so writing the pair at once yields
the same final cells.) -/
def khAllocGo (mask : Nat) : Nat → List (Nat × Nat) → Nat → Nat → Nat → Nat →
    List (Nat × Nat)
  | 0, a, i, _, k0, v0 => a.set i (k0, v0)
  | fuel + 1, a, i, k1, k0, v0 =>
    if khOccupied k1 then
      let v1 := (a.getD i (UMAX, UMAX)).2
      let a' := a.set i (k0, v0)
      let pr := khPollGo a' mask (mask + 2) ((k1 % (mask + 1) : Nat) : Int)
        ((i + 1) % (mask + 1))
      khAllocGo mask fuel a' pr.1 pr.2 k1 v1
    else a.set i (k0, v0)

/-- `kh_allocate`: poll from the key's home slot; a stop on an equal key is
a duplicate (nothing written, `n = 0`); otherwise run the displacement
chain.  Returns the new cells, the first stop index `j`, and `n`. -/
def khAllocate (a : List (Nat × Nat)) (key val mask : Nat) :
    List (Nat × Nat) × Nat × Nat :=
  let i0 := key % (mask + 1)
  let pr := khPollGo a mask (mask + 2) (i0 : Int) i0
  if pr.2 = key then (a, pr.1, 0)
  else (khAllocGo mask (mask + 2) a pr.1 pr.2 key val, pr.1, 1)

/-- The rehash sweep of `kh_extend`: for each slot in order, a key that is
occupied but no longer home-masked to its slot is marked moved and
re-allocated under the doubled mask. -/
def khExtendGo (mask' : Nat) : Nat → List (Nat × Nat) → List (Nat × Nat)
  | 0, a => a
  | fuel + 1, a =>
    let i := a.length - (fuel + 1)
    let k := (a.getD i (UMAX, UMAX)).1
    if khOccupied k ∧ k % (mask' + 1) ≠ i then
      let v := (a.getD i (UMAX, UMAX)).2
      let a' := a.set i (KMOVED, UMAX)
      khExtendGo mask' fuel (khAllocate a' k v mask').1
    else khExtendGo mask' fuel a

/-- `kh_extend`: double the table, clear the new upper half, and rehash. -/
def khExtend (h : KhT) : KhT :=
  let prev := h.mask + 1
  let size := 2 * prev
  let a0 := (h.a.take prev ++ List.replicate prev (UMAX, UMAX))
  { mask := size - 1, max := max h.max size, cnt := h.cnt,
    ub := 2 * size / 5, a := khExtendGo (size - 1) size a0 }

/-- `kh_put`: extend when `cnt ≥ ub`, allocate, then store `(key, val)` at
the returned slot and bump `cnt` by `n`. -/
def khPut (h : KhT) (key val : Nat) : KhT :=
  let h := if h.ub ≤ h.cnt then khExtend h else h
  let r := khAllocate h.a key val h.mask
  { h with a := r.1.set r.2.1 (key, val), cnt := h.cnt + r.2.2 }

/-- The probe loop shared by `kh_get` / `kh_get_ptr`: from the key's home
slot, stop with the value on key equality, with `none` on an empty slot
(moved slots are probed through). -/
def khGetGo (a : List (Nat × Nat)) (mask key : Nat) : Nat → Nat → Option Nat
  | 0, _ => none
  | fuel + 1, pos =>
    let c := a.getD pos (UMAX, UMAX)
    if c.1 = key then some c.2
    else if c.1 = UMAX then none
    else khGetGo a mask key fuel ((pos + 1) % (mask + 1))

/-- `kh_get_ptr`: `none` models the `NULL` return. -/
def khGet (h : KhT) (key : Nat) : Option Nat :=
  khGetGo h.a h.mask key (h.mask + 2) (key % (h.mask + 1))

/-! ## The two-stage index (`mm_idx_t`, `mm_idx_get`, `mm_idx_build_hash`)

A bucket (`mm_idx_bkt_t`) holds the second-stage table `w.h` (whose cell
array is `NULL` for a bucket that received no minimizers — modelled as
`Option KhT`) and the value/posting array `v.p` (`p[0]` holds the posting
word count, postings follow from `p[1]`). -/

/-- One minimizer record (`mm_mini_t`): `hrem = hash >> b`, packed
position, and `rid<<1|strand`. -/
structure Mini where
  hrem : Nat
  pos : Nat
  rid : Nat
  deriving Repr, DecidableEq

/-- `_loadu_u64(&q->pos)`: the posting word `pos | rid << 32`. -/
def miniVal (m : Mini) : Nat := m.pos % U32 + (m.rid % U32) * U32

/-- An index bucket: the optional second-stage table and the value array. -/
structure MmIdxBkt where
  kh : Option KhT
  p : List Nat
  deriving Repr, DecidableEq

/-- The index object (`mm_idx_t`), restricted to the fields `mm_idx_get`
and the dump/load round trip touch. -/
structure MmIdx where
  mask : Nat
  b : Nat
  w : Nat
  k : Nat
  n_occ : Nat
  occ : List Nat
  n_seq : Nat
  mono : Nat
  bkt : List MmIdxBkt
  deriving Repr, DecidableEq

/-- `mm_idx_get`: select the bucket by `minier & mask`; look up
`minier >> b` in its second-stage table; decode the value: a clear high bit
is an inline posting (count 1, the value itself); otherwise the count is
the value's low 32 bits and the slice of the bucket's posting array starts
at the value's bits 32..62.  The returned `(count, pointer)` pair is
rendered as the count plus the pointed-to posting words. -/
def mmIdxGet (mi : MmIdx) (minier : Nat) : Nat × List Nat :=
  let bkt := mi.bkt.getD (minier &&& mi.mask) ⟨none, []⟩
  match bkt.kh with
  | none => (0, [])
  | some h =>
    match khGet h (minier >>> mi.b) with
    | none => (0, [])
    | some v =>
      if v < 2 ^ 63 then (1, [v])
      else (v % U32, (bkt.p.drop ((v >>> 32) &&& 0x7fffffff)).take (v % U32))

/-- The `_fill_body` macro of `mm_idx_build_hash`: insert one key's
accumulated records.  A single record is stored inline (the posting word is
the hash value); several are appended to the value array `r` starting at
index `sp + 1`, and the stored value is `base<<32 | 1<<63 | count`. -/
def mmFillBody (h : KhT) (r : List Nat) (run : List Mini) : KhT × List Nat :=
  match run with
  | [] => (h, r)
  | q :: rest =>
    if rest.isEmpty then (khPut h q.hrem (miniVal q), r)
    else
      let base := r.length
      let r' := r ++ [miniVal q] ++ rest.map miniVal
      (khPut h q.hrem (((((base * U32) % U64) ||| 2 ^ 63) + run.length) % U64), r')

/-- The key-grouping loop of `mm_idx_build_hash`: `pending` is the span
`q..p-1`; at a key boundary it is filled only when its length is at most
`max_cnt`, and — exactly as in the C code — `q` is *not* advanced when the
span is longer, so the span keeps accumulating across later keys. -/
def mmBuildLoop (maxCnt : Nat) : Nat → KhT → List Nat → List Mini → List Mini →
    KhT × List Nat
  | 0, h, r, _, _ => (h, r)
  | fuel + 1, h, r, pending, rest =>
    match rest with
    | [] => if pending.length ≤ maxCnt then mmFillBody h r pending else (h, r)
    | x :: xs =>
      if (pending.getLast?.map Mini.hrem ≠ some x.hrem) ∧ pending.length ≤ maxCnt then
        let hr := mmFillBody h r pending
        mmBuildLoop maxCnt fuel hr.1 hr.2 [x] xs
      else mmBuildLoop maxCnt fuel h r (pending ++ [x]) xs

/-- `mm_idx_build_hash` for one bucket, given the `(hrem, pos)`-sorted
minimizer array and `max_cnt = occ[n_occ - 1]`.  The table is pre-sized to
`1.1 * n_keys / KH_THRESH` (`= ⌊2.75·n_keys⌋`), the spans are filled, and
`r[0]` is set to `n_arr − n_single` (the count_occ statistics).  An empty
bucket keeps no table. -/
def mmIdxBuildHashBucket (arr : List Mini) (maxCnt : Nat) :
    Option (KhT × List Nat) :=
  match arr with
  | [] => none
  | m :: rest =>
    let runs := mmIdxCountOcc (arr.map Mini.hrem)
    let nKeys := runs.length
    let nSingle := (runs.filter (· == 1)).length
    let h0 := khInitStatic (11 * nKeys / 4)
    let hr := mmBuildLoop maxCnt (arr.length + 1) h0 [0] [m] rest
    some (hr.1, hr.2.set 0 (arr.length - nSingle))

/-- Claim C3's reading of `mm_idx_get`'s multi-posting decode: the count is
the low 31 bits of the value's high half and the base offset is the value's
high 32 bits. -/
def mmIdxGetClaim (mi : MmIdx) (minier : Nat) : Nat × List Nat :=
  let bkt := mi.bkt.getD (minier &&& mi.mask) ⟨none, []⟩
  match bkt.kh with
  | none => (0, [])
  | some h =>
    match khGet h (minier >>> mi.b) with
    | none => (0, [])
    | some v =>
      if v < 2 ^ 63 then (1, [v])
      else ((v >>> 32) &&& 0x7fffffff, (bkt.p.drop (v >>> 32)).take ((v >>> 32) &&& 0x7fffffff))

/-- The cyclic probe distance from a key's home slot to slot `i`. -/
def khDist (mask home i : Nat) : Nat :=
  if home ≤ i then i - home else i + (mask + 1) - home

/-- Well-formedness of a `kh_t` after construction: the cell array has the
masked size, some slot is empty, occupied keys are pairwise distinct, and
every occupied key is reachable from its home slot without crossing an
empty slot (the open-addressing probe invariant). -/
@[reducible] def khWF (h : KhT) : Prop :=
  h.a.length = h.mask + 1 ∧
  (∃ i < h.a.length, (h.a.getD i (UMAX, UMAX)).1 = UMAX) ∧
  (∀ i < h.a.length, ∀ j < h.a.length, i ≠ j →
    khOccupied (h.a.getD i (UMAX, UMAX)).1 = true →
    (h.a.getD i (UMAX, UMAX)).1 ≠ (h.a.getD j (UMAX, UMAX)).1) ∧
  (∀ i < h.a.length, khOccupied (h.a.getD i (UMAX, UMAX)).1 = true →
    ∀ t < khDist h.mask ((h.a.getD i (UMAX, UMAX)).1 % (h.mask + 1)) i,
      (h.a.getD (((h.a.getD i (UMAX, UMAX)).1 % (h.mask + 1) + t) % (h.mask + 1))
        (UMAX, UMAX)).1 ≠ UMAX)

/-- Lookup by scanning the cell array: the value stored with `key`, if any
cell holds it.  This is the abstract reading of "the key is present in the
bucket's second-stage table". -/
def khFind (h : KhT) (key : Nat) : Option Nat :=
  (h.a.find? (fun c => c.1 == key)).map Prod.snd

/-- The amended C3 decode: bucket `h & mask` (written as a remainder), key
`h >> b` (written as a division) looked up by scanning the table; an absent
key gives count 0, a clear high bit gives the inline posting with count 1,
otherwise the count is the value's low 32 bits and the base offset is bits
32..62. -/
def mmIdxGetSpec (mi : MmIdx) (minier : Nat) : Nat × List Nat :=
  let bkt := mi.bkt.getD (minier % (mi.mask + 1)) ⟨none, []⟩
  match bkt.kh with
  | none => (0, [])
  | some h =>
    match khFind h (minier / 2 ^ mi.b) with
    | none => (0, [])
    | some v =>
      if v < 2 ^ 63 then (1, [v])
      else (v % U32, (bkt.p.drop (v / U32 % 2 ^ 31)).take (v % U32))

/-- Test fixture: the bucket built from two postings of the key `2`
(`mm_idx_build_hash` on a two-element run). -/
def exampleBkt : MmIdxBkt :=
  match mmIdxBuildHashBucket [⟨2, 60, 2⟩, ⟨2, 70, 2⟩] 3 with
  | some hr => ⟨some hr.1, hr.2⟩
  | none => ⟨none, []⟩

/-- Test fixture: a `b = 4` index whose bucket 3 is `exampleBkt`; the
minimizer `35 = 2<<4 | 3` hits bucket 3 with second-stage key 2. -/
def exampleIdx : MmIdx :=
  ⟨15, 4, 16, 15, 1, [3], 0, 0,
    List.replicate 3 ⟨none, []⟩ ++ [exampleBkt] ++ List.replicate 12 ⟨none, []⟩⟩

/-- Test fixture: a four-slot table holding the single key 9 (home slot
`9 % 4 = 1`) with inline value 77. -/
def tinyKh : KhT :=
  ⟨3, 4, 1, 1, [(UMAX, UMAX), (9, 77), (UMAX, UMAX), (UMAX, UMAX)]⟩

/-- Test fixture: a `b = 2` index whose bucket 1 is `tinyKh`; the minimizer
`37 = 9<<2 | 1` hits bucket 1 with second-stage key 9. -/
def tinyIdx : MmIdx :=
  ⟨3, 2, 16, 15, 1, [3], 0, 0,
    [⟨none, []⟩, ⟨some tinyKh, []⟩, ⟨none, []⟩, ⟨none, []⟩]⟩

/-! ## Index serialization (`mm_idx_dump` minialign.c:3069-3127,
`mm_idx_load` minialign.c:3135-3167)

`mm_idx_dump` writes the 4-byte magic and the total slab size, then the
slab: the 64-byte `mm_idx_t` header, `1<<b` 32-byte bucket records, `n_seq`
24-byte sequence records, per non-empty bucket its `16·kh_size` cell array
followed by its `8·(p[0]+1)` value array, and finally the raw sequence
memory blocks.  Pointer fields are replaced by slab offsets accumulated by
`_acc` in exactly this layout order.  `mm_idx_load` reads the whole slab
and turns each offset back into a reference; `mm_idx_get` then works on the
loaded image.  The model represents the slab as the ordered list of typed
chunks with their byte sizes; a pointer dereference after load is a lookup
of the chunk starting at the given byte offset (`chunkAt`).  Sequence
records and memory blocks are opaque here: `mm_idx_get` never touches
them. -/

/-- A dumped bucket record: the four embedded `kh_t` header words plus the
two pointer fields rewritten as slab offsets. -/
structure BktDump where
  khMask : Nat
  khMax : Nat
  khCnt : Nat
  khUb : Nat
  khOfs : Nat
  pOfs : Nat
  deriving Repr, DecidableEq

/-- One typed chunk of the slab. -/
inductive PgPayload where
  | hdr (mask b w k n_occ : Nat) (occ : List Nat) (n_seq mono bktOfs sOfs : Nat)
  | bktRec (r : Option BktDump)
  | seqRec
  | khArr (cells : List (Nat × Nat))
  | postArr (p : List Nat)
  | mem (sz : Nat)
  deriving Repr, DecidableEq

/-- Byte size of a chunk (`sizeof` of the corresponding C object). -/
def chunkSize : PgPayload → Nat
  | .hdr _ _ _ _ _ _ _ _ _ _ => 64
  | .bktRec _ => 32
  | .seqRec => 24
  | .khArr cells => 16 * cells.length
  | .postArr p => 8 * p.length
  | .mem sz => sz

/-- Total byte size of a chunk list. -/
def sizeSum (l : List PgPayload) : Nat := (l.map chunkSize).sum

/-- The bucket-record pass of `mm_idx_dump`: walk the buckets accumulating
the data offset (`_acc`), rewriting the two pointers of each non-empty
bucket; an empty bucket (cell array `NULL`) is written as-is. -/
def mmIdxDumpBktRecs : List MmIdxBkt → Nat → List PgPayload × Nat
  | [], acc => ([], acc)
  | b :: rest, acc =>
    match b.kh with
    | none =>
      let r := mmIdxDumpBktRecs rest acc
      (.bktRec none :: r.1, r.2)
    | some h =>
      let khOfs := acc
      let pOfs := acc + 16 * (h.mask + 1)
      let r := mmIdxDumpBktRecs rest (pOfs + 8 * (b.p.getD 0 0 + 1))
      (.bktRec (some ⟨h.mask, h.max, h.cnt, h.ub, khOfs, pOfs⟩) :: r.1, r.2)

/-- The data pass of `mm_idx_dump`: per non-empty bucket, the cell array
then the value array. -/
def mmIdxDumpData (bkts : List MmIdxBkt) : List PgPayload :=
  bkts.flatMap fun b =>
    match b.kh with
    | none => []
    | some h => [.khArr h.a, .postArr b.p]

/-- `mm_idx_dump`: the slab chunk list in write order. -/
def mmIdxDumpStream (mi : MmIdx) (memSizes : List Nat) : List PgPayload :=
  let bktOfs := 64
  let sOfs := bktOfs + 32 * 2 ^ mi.b
  let dataOfs := sOfs + 24 * mi.n_seq
  .hdr mi.mask mi.b mi.w mi.k mi.n_occ mi.occ mi.n_seq mi.mono bktOfs sOfs
    :: ((mmIdxDumpBktRecs mi.bkt dataOfs).1
      ++ List.replicate mi.n_seq .seqRec
      ++ mmIdxDumpData mi.bkt
      ++ memSizes.map .mem)

/-- `mm_idx_dump_calc_size`: the byte size announced in the file header. -/
def mmIdxDumpCalcSize (mi : MmIdx) (memSizes : List Nat) : Nat :=
  64 + 32 * 2 ^ mi.b + 24 * mi.n_seq
    + (mi.bkt.map fun b =>
        match b.kh with
        | none => 0
        | some h => 16 * (h.mask + 1) + 8 * (b.p.getD 0 0 + 1)).sum
    + memSizes.sum

/-- Dereference the slab at byte offset `ofs` (the chunk must start exactly
there; `base` is the offset of the first listed chunk). -/
def chunkAt : List PgPayload → Nat → Nat → Option PgPayload
  | [], _, _ => none
  | c :: rest, base, ofs =>
    if ofs = base then some c else chunkAt rest (base + chunkSize c) ofs

/-- The per-bucket pointer fixup of `mm_idx_load`: read the 32-byte record
at `bktOfs + 32·i` and resolve its two offsets. -/
def mmIdxLoadBkt (stream : List PgPayload) (bktOfs i : Nat) : Option MmIdxBkt :=
  match chunkAt stream 0 (bktOfs + 32 * i) with
  | some (.bktRec none) => some ⟨none, []⟩
  | some (.bktRec (some r)) =>
    match chunkAt stream 0 r.khOfs, chunkAt stream 0 r.pOfs with
    | some (.khArr cells), some (.postArr p) =>
      some ⟨some ⟨r.khMask, r.khMax, r.khCnt, r.khUb, cells⟩, p⟩
    | _, _ => none
  | _ => none

/-- `mm_idx_load` on a slab: read the header at offset 0, set `mono = 1`,
and fix up the `1<<b` buckets.  A dereference of an offset at which no
chunk starts models a wild pointer and fails. -/
def mmIdxLoad (stream : List PgPayload) : Option MmIdx :=
  match chunkAt stream 0 0 with
  | some (.hdr mask b w k n_occ occ n_seq _mono bktOfs _sOfs) =>
    match (List.range (2 ^ b)).mapM (mmIdxLoadBkt stream bktOfs) with
    | some bkts => some ⟨mask, b, w, k, n_occ, occ, n_seq, 1, bkts⟩
    | none => none
  | _ => none

/-- Per-bucket well-formedness `mm_idx_dump` relies on: an empty bucket has
no value array, a non-empty one has its cell array at the header size and
its value array carrying its own length in `p[0]` (all guaranteed by
`mm_idx_gen`). -/
@[reducible] def bktDumpWF : MmIdxBkt → Prop
  | ⟨none, p⟩ => p = []
  | ⟨some h, p⟩ => h.a.length = h.mask + 1 ∧ p.length = p.getD 0 0 + 1

instance : DecidablePred bktDumpWF := fun b =>
  match b with
  | ⟨none, p⟩ => inferInstanceAs (Decidable (p = []))
  | ⟨some _, _⟩ => inferInstanceAs (Decidable (_ ∧ _))

/-- The well-formedness `mm_idx_dump` relies on: the bucket array has the
masked length and each bucket is well formed. -/
@[reducible] def mmIdxDumpWF (mi : MmIdx) : Prop :=
  mi.bkt.length = 2 ^ mi.b ∧ ∀ bkt ∈ mi.bkt, bktDumpWF bkt

/-- Test fixture for serialization: a copy of `tinyIdx` whose non-empty
bucket carries the value array `[0]` (the length-prefix convention of
`mm_idx_gen`, here with zero stored values). -/
def dumpIdx : MmIdx :=
  ⟨3, 2, 16, 15, 1, [3], 0, 0,
    [⟨none, []⟩, ⟨some tinyKh, [0]⟩, ⟨none, []⟩, ⟨none, []⟩]⟩


/-! ## Minimizer sketch (`hash64` minialign.c:2351, `mm_sketch`
minialign.c:2409-2435, `mm_sketch_cap` minialign.c:2436-2443)

`mm_sketch` computes the (w,k)-minimizer stream of a sequence of 2-bit
bases: after priming the k-mer registers on the first k-1 bases it
processes full blocks of w positions against the backward-min array `r`
carried from the previous block, and a shorter tail re-bases `r` and the
dedup register `u` so a later `mm_sketch_cap` call can resume inside the
block.  Emitted words are `hash<<8 | local_index | dir`; a cap record
(`i`, `u`, `k0`, `k1`) is appended after the stream.  The model keeps the
emitted words in `out` (cap records are represented by the returned index
byte and the `u`/`k0`/`k1` fields of the state, so comparing `out` fields
is comparison modulo cap records) and threads the `r` array explicitly.
All 64-bit quantities wrap modulo 2^64 exactly where the C arithmetic
does. -/

def crc32cGo : Nat → Nat → Nat → Nat
  | 0, c, _ => c
  | n + 1, c, d =>
    let c2 := if (c ^^^ d) &&& 1 = 1 then (c >>> 1) ^^^ 0x82F63B78 else c >>> 1
    crc32cGo n c2 (d >>> 1)

def crc32c (crc data : Nat) : Nat := crc32cGo 64 (crc % U32) data

def hash64 (k0 k1 mask : Nat) : Nat := (crc32c k1 k1 ^^^ k0) &&& mask

def skMask (k : Nat) : Nat := 2 ^ (2 * k) - 1

def skPushKmer (k : Nat) (k0 k1 c : Nat) : Nat × Nat :=
  (((k0 <<< 2) ||| c) &&& skMask k,
   (k1 >>> 2) ||| (((3 ^^^ c) <<< (2 * (k - 1))) % U64))

structure SkLoop where
  f : Nat
  u : Nat
  k0 : Nat
  k1 : Nat
  out : List Nat
  deriving Repr, DecidableEq

def skCoreStep (k : Nat) (r : List Nat) (i : Nat) (s : SkLoop) (c : Nat) :
    SkLoop × Nat :=
  let kp := skPushKmer k s.k0 s.k1 c
  let km := if kp.1 < kp.2 then kp.1 else kp.2
  let kx := if kp.1 < kp.2 then kp.2 else kp.1
  let m := if kp.1 < kp.2 then 0 else 0x80
  let h := ((hash64 km kx (skMask k) <<< 8) % U64) ||| i ||| m
  let f := min s.f h
  let v := min f (r.getD (i + 1) 0)
  (⟨f, v, kp.1, kp.2,
    if v = h ∨ v ≠ s.u then s.out ++ [v] else s.out⟩, h)

def skRun (k : Nat) (r : List Nat) : Nat → SkLoop → List Nat → SkLoop × List Nat
  | _, s, [] => (s, [])
  | i, s, c :: cs =>
    let st := skCoreStep k r i s c
    let rest := skRun k r (i + 1) st.1 cs
    (rest.1, st.2 :: rest.2)

def skRunGuard (w k : Nat) (r : List Nat) : Nat → SkLoop → List Nat → SkLoop
  | _, s, [] => s
  | i, s, c :: cs =>
    if i < w then skRunGuard w k r (i + 1) (skCoreStep k r i s c).1 cs else s

def suffixMins : List Nat → List Nat
  | [] => []
  | x :: xs =>
    match suffixMins xs with
    | [] => [x]
    | y :: ys => min x y :: y :: ys

structure SkSt where
  r : List Nat
  u : Nat
  k0 : Nat
  k1 : Nat
  out : List Nat
  deriving Repr, DecidableEq

def skBlockOnce (w k : Nat) (blk : List Nat) (st : SkSt) : SkSt :=
  let run := skRun k st.r 0 ⟨UMAX, st.u, st.k0, st.k1, st.out⟩ blk
  ⟨suffixMins run.2 ++ st.r.drop w, run.1.u, run.1.k0, run.1.k1, run.1.out⟩

def skDoBlocks (w k : Nat) : Nat → List Nat → SkSt → SkSt
  | 0, _, st => st
  | n + 1, cs, st => skDoBlocks w k n (cs.drop w) (skBlockOnce w k (cs.take w) st)

def skTail (w k : Nat) (tl : List Nat) (st : SkSt) : SkSt :=
  let l := tl.length
  let run := skRun k st.r 0 ⟨UMAX, st.u, st.k0, st.k1, st.out⟩ tl
  let r1 := st.r.take w ++ run.2.map (fun h => (h + w) % U64) ++ st.r.drop (w + l)
  let r2 := r1.take l ++ suffixMins ((r1.drop l).take w) ++ r1.drop (l + w)
  let r3 := (List.range w).map (fun i => u64sub (r2.getD (l + i) 0) l) ++ r2.drop w
  ⟨r3, (run.1.u + (w - l)) % U64, run.1.k0, run.1.k1, run.1.out⟩

def mmSketch (w k : Nat) (seq r0 : List Nat) : SkSt × Nat :=
  let kk := k - 1
  let kp := (seq.take kk).foldl (fun p c => skPushKmer k p.1 p.2 c) (0, 0)
  let rest := seq.drop kk
  let n := rest.length / w
  let l := rest.length % w
  let st1 := skDoBlocks w k n (rest.take (n * w)) ⟨r0, 0, kp.1, kp.2, []⟩
  (if l = 0 then st1 else skTail w k (rest.drop (n * w)) st1, 0)

def mmSketchCap (w k ci : Nat) (st : SkSt) (seq : List Nat) : SkSt × Nat :=
  let l := min seq.length (u64sub w ci)
  let run := skRunGuard w k st.r ci ⟨UMAX, st.u, st.k0, st.k1, st.out⟩ (seq.take l)
  (⟨st.r, run.u, run.k0, run.k1, run.out⟩, ci + l)

def r64 : List Nat := List.replicate 64 UMAX

end Minialign

namespace Minialign

/-! ## Theorems -/

/-! ### Claim C7 -/

/-- Counterexample to C7: at `w = 1` (with any in-range `k`, here 15) the
claim's condition `w == 0 || k == 0 || w > 31 || k > 31` says the pair is
accepted, but `mm_opt_window`'s assertion `w > 1 && w < 32` fails. -/
theorem mm_opt_param_claim_false_at_w1 :
    mmOptParamInvalid 1 15 = true ∧ specParamInvalid 1 15 = false := by
  constructor <;> rfl

/-- C7 (amended): the sketch/index parameter validation fails exactly when
`w ≤ 1 || k ≤ 1 || w > 31 || k > 31`; every other `(w, k)` pair is accepted. -/
theorem mm_opt_param_invalid_iff (w k : Nat) :
    mmOptParamInvalid w k = true ↔ (w ≤ 1 ∨ k ≤ 1 ∨ 31 < w ∨ 31 < k) := by
  simp [mmOptParamInvalid, mmOptWindowOk, mmOptKmerOk, Bool.or_eq_true,
    Bool.not_eq_true', Bool.and_eq_false_iff]
  omega

/-- Witness for `mm_opt_param_invalid_iff` at `(w, k) = (0, 4)`. -/
theorem mm_opt_param_invalid_iff_witness :
    mmOptParamInvalid 0 4 = true :=
  (mm_opt_param_invalid_iff 0 4).mpr (Or.inl (by decide))

/-! ### Claim C10 -/

/-- C10: a query shorter than `k`, or whose maximal attainable score
`l_seq * mcoef` is below `min_score`, makes `mm_align_seq` return `NULL`
without running the seed-chain-extend loop (the result does not depend on
`rest`, which is never invoked). -/
theorem mm_align_seq_unmappable {α : Type} (k : Nat) (mcoef : ℚ)
    (min_score : Nat) (l_seq : Nat) (rest : Unit → Option α)
    (h : l_seq < k ∨ (l_seq : ℚ) * mcoef < (min_score : ℚ)) :
    mmAlignSeq k mcoef min_score l_seq rest = none := by
  simp [mmAlignSeq, h]

/-- Witness for `mm_align_seq_unmappable`: a 10-base query against a `k = 15`
index is reported unmapped whatever the rest of the mapper would do. -/
theorem mm_align_seq_unmappable_witness :
    mmAlignSeq 15 (2 : ℚ) 50 10 (fun _ => some 0) = none :=
  mm_align_seq_unmappable 15 2 50 10 _ (Or.inl (by norm_num))

/-! ### Claim C9 -/

/-- The primary/supplementary branch of `mm_post_map` is well behaved for
every `ulen`: the `log10` argument `1/(ulen² + 1)` lies in `(0, 1]`, so the
value fed to `_clip` is nonnegative (the `uint32_t` cast is defined) and
the stored fixed-point mapq is clipped into `[0, 60·16]`. -/
theorem mm_post_map_mapq_primary_clipped (ulen : ℝ) :
    0 ≤ mmMapqValPrimary ulen ∧
      mmMapqPrimary ulen ≤ 60 * 16 ∧ mmMapqPrimary ulen / 16 ≤ 60 := by
  have hb : (1 : ℝ) < 10 := by norm_num
  have hprim : 0 ≤ mmMapqValPrimary ulen := by
    unfold mmMapqValPrimary
    have hpos : (0 : ℝ) < ulen * ulen + 1 := by nlinarith [mul_self_nonneg ulen]
    have hpe0 : (0 : ℝ) ≤ 1 / (ulen * ulen + 1) := div_nonneg zero_le_one hpos.le
    have hpe1 : 1 / (ulen * ulen + 1) ≤ 1 := by
      rw [div_le_one hpos]; nlinarith [mul_self_nonneg ulen]
    have := Real.logb_nonpos hb hpe0 hpe1
    nlinarith
  refine ⟨hprim, ?_, ?_⟩ <;> simp only [mmMapqPrimary, mapqClip] <;> omega

/-- The primary/supplementary mapq witness at `ulen = 3`. -/
theorem mm_post_map_mapq_primary_clipped_at_three :
    0 ≤ mmMapqValPrimary 3 ∧
      mmMapqPrimary 3 ≤ 60 * 16 ∧ mmMapqPrimary 3 / 16 ≤ 60 :=
  mm_post_map_mapq_primary_clipped 3

/-- C9 (code bug): the secondary-bin mapq formula at minialign.c:4321
feeds the RAW offset-encoded `res[i].score` into the numerator while `lsc`
and `tsc` are decoded through `_ofs`.  For the reachable repetitive
configuration of two alignments with equal actual score 100 — one primary,
one secondary — the statistics come out as `lsc = tsc = 100`, and `tpe`
evaluates to 1 for every `ec` (the primary ties with the best secondary, so
`ulen = 0` and `pe = 1`), so the code's `log10` argument
`1 - tpe·(res.score - lsc + 1)/tsc` is negative: `log10` incurs a domain
error (NaN) and the `(uint32_t)` cast inside `_clip` of the result is
undefined, so the stored secondary mapq is not a clipped value in
`[0, 60]` as the claim states.  With the score decoded, the same formula
gives an argument in `(0, 1)` and a well-defined clipped mapq. -/
theorem mm_post_map_mapq_secondary_bug :
    (∀ ec : ℚ, mmTpe [mmPePrimary (mmUlen ec 100 100)] = 1) ∧
    mmPostMapLsc [mmOfs 100] = 100 ∧
    mmPostMapTsc [mmOfs 100] = 100 ∧
    mmMapqSecondaryArg 1 (mmOfs 100) 100 100 < 0 ∧
    (0 < mmMapqSecondaryArgSpec 1 (mmOfs 100) 100 100 ∧
      mmMapqSecondaryArgSpec 1 (mmOfs 100) 100 100 < 1) := by
  refine ⟨?_, ?_, ?_, ?_, ?_, ?_⟩
  · intro ec
    norm_num [mmTpe, mmPePrimary, mmUlen]
  · norm_num [mmPostMapLsc, mmOfs]
  · norm_num [mmPostMapTsc, mmOfs]
  · norm_num [mmMapqSecondaryArg, mmOfs]
  · norm_num [mmMapqSecondaryArgSpec, mmOfs]
  · norm_num [mmMapqSecondaryArgSpec, mmOfs]

/-! ### Claim C5 -/

/-- `getD` on a `≤`-sorted list is monotone in the index (within bounds). -/
theorem sorted_getD_mono (l : List Nat) (h : l.Sorted (· ≤ ·)) (i j : Nat)
    (hij : i ≤ j) (hj : j < l.length) : l.getD i 0 ≤ l.getD j 0 := by
  rcases Nat.eq_or_lt_of_le hij with rfl | hlt
  · exact le_refl _
  · have hi : i < l.length := by omega
    have := h.rel_get_of_lt (a := ⟨i, hi⟩) (b := ⟨j, hj⟩) hlt
    simpa [List.getD_eq_getElem, List.get_eq_getElem, hi, hj] using this

/-- Order statistics are monotone in the rank. -/
theorem ksKsmall_mono (cnt : List Nat) (i j : Nat) (hij : i ≤ j)
    (hj : j < cnt.length) : ksKsmall cnt i ≤ ksKsmall cnt j := by
  unfold ksKsmall
  have hlen : (cnt.insertionSort (· ≤ ·)).length = cnt.length :=
    (List.perm_insertionSort _ cnt).length_eq
  exact sorted_getD_mono _ (List.sorted_insertionSort _ cnt) i j hij (by omega)

/-- For `0 < f` the rank `⌊(1 − f)·n⌋` is a valid index into the histogram. -/
theorem occ_idx_lt (cnt : List Nat) (f : ℚ) (h0 : 0 < f) (hne : cnt ≠ []) :
    (⌊(1 - f) * (cnt.length : ℚ)⌋).toNat < cnt.length := by
  have hn : 0 < cnt.length := List.length_pos.mpr hne
  have h1 : (1 - f) * (cnt.length : ℚ) < cnt.length := by
    have : (0:ℚ) < (cnt.length : ℚ) := by exact_mod_cast hn
    nlinarith
  have hle := Int.floor_le ((1 - f) * (cnt.length : ℚ))
  have hfl : (⌊(1 - f) * (cnt.length : ℚ)⌋ : ℚ) < (cnt.length : ℚ) := lt_of_le_of_lt hle h1
  have : ⌊(1 - f) * (cnt.length : ℚ)⌋ < (cnt.length : ℤ) := by exact_mod_cast hfl
  omega

/-- Larger fractions give smaller (or equal) ranks. -/
theorem occ_idx_mono (cnt : List Nat) (f g : ℚ) (hfg : g < f) :
    (⌊(1 - f) * (cnt.length : ℚ)⌋).toNat ≤ (⌊(1 - g) * (cnt.length : ℚ)⌋).toNat := by
  have h : (1 - f) * (cnt.length : ℚ) ≤ (1 - g) * (cnt.length : ℚ) := by
    have : (0:ℚ) ≤ (cnt.length : ℚ) := by positivity
    nlinarith
  have := Int.floor_le_floor h
  omega

/-- Counterexample to C5: for the (reachable) histogram of four distinct
keys occurring once each and the descending fraction list `[3/4, 1/2]`, the
computed cut-offs are `[2, 2]`, which are *not* strictly increasing.  (The
histogram `[1,1,1,1]` is exactly what `mm_idx_count_occ` produces for a
bucket whose sorted key array is `[10, 20, 30, 40]`.) -/
theorem mm_idx_occ_claim_false :
    ((1:ℚ)/2 < 3/4 ∧ (0:ℚ) < 1/2 ∧ (3:ℚ)/4 < 1) ∧
    mmIdxCountOcc [10, 20, 30, 40] = [1, 1, 1, 1] ∧
    mmIdxOcc [1, 1, 1, 1] [3/4, 1/2] = [2, 2] ∧
    ¬ List.Chain' (· < ·) (mmIdxOcc [1, 1, 1, 1] [3/4, 1/2]) := by
  have h : mmIdxOcc [1, 1, 1, 1] [3/4, 1/2] = [2, 2] := by
    norm_num [mmIdxOcc, ksKsmall]
    decide
  refine ⟨by norm_num, by decide, h, ?_⟩
  rw [h]
  simp [List.chain'_cons]

/-- C5 (amended): for user fractions given in strictly descending order,
each in `(0, 1)`, and a nonempty histogram, the computed cut-off `occ[i]`
equals the `⌊(1 − f_i)·n_keys⌋`-th (0-based) order statistic of the
distinct-key occurrence-count histogram plus 1, and the cut-offs are
non-decreasing: `occ[0] ≤ occ[1] ≤ … ≤ occ[n−1]` (strict increase does not
hold in general). -/
theorem mm_idx_occ_thresholds (cnt : List Nat) (frq : List ℚ)
    (hne : cnt ≠ []) (hf : ∀ f ∈ frq, 0 < f ∧ f < 1)
    (hdesc : List.Chain' (· > ·) frq) :
    mmIdxOcc cnt frq
      = frq.map (fun f => ksKsmall cnt (⌊(1 - f) * (cnt.length : ℚ)⌋).toNat + 1)
    ∧ List.Chain' (· ≤ ·) (mmIdxOcc cnt frq) := by
  have hmap : mmIdxOcc cnt frq
      = frq.map (fun f => ksKsmall cnt (⌊(1 - f) * (cnt.length : ℚ)⌋).toNat + 1) := by
    unfold mmIdxOcc
    refine List.map_congr_left (fun f hmem => ?_)
    have := (hf f hmem).1
    simp only [if_neg (by linarith : ¬ f ≤ 0)]
  refine ⟨hmap, ?_⟩
  rw [hmap, List.chain'_map]
  clear hmap
  induction frq with
  | nil => simp
  | cons f rest ih =>
    cases rest with
    | nil => simp
    | cons f' rest' =>
      rw [List.chain'_cons] at hdesc ⊢
      refine ⟨?_, ih (fun x hx => hf x (List.mem_cons_of_mem _ hx)) hdesc.2⟩
      have h2 := hf f' (by simp)
      have := ksKsmall_mono cnt _ _ (occ_idx_mono cnt f f' hdesc.1)
        (occ_idx_lt cnt f' h2.1 hne)
      omega

/-- Witness for `mm_idx_occ_thresholds` at `cnt = [1, 2]`, `frq = [1/2]`. -/
theorem mm_idx_occ_thresholds_witness :
    (([1, 2] : List Nat) ≠ [] ∧ (∀ f ∈ [(1:ℚ)/2], 0 < f ∧ f < 1) ∧
      List.Chain' (· > ·) [(1:ℚ)/2]) ∧
    (mmIdxOcc [1, 2] [1/2]
      = [(1:ℚ)/2].map (fun f => ksKsmall [1, 2] (⌊(1 - f) * ((2 : Nat) : ℚ)⌋).toNat + 1)
    ∧ List.Chain' (· ≤ ·) (mmIdxOcc [1, 2] [1/2])) :=
  ⟨⟨by decide, by norm_num, by simp⟩,
    mm_idx_occ_thresholds [1, 2] [1/2] (by decide) (by norm_num) (by simp)⟩

/-! ### Claim C8 -/

theorem drainFlush_spec (hq : List (Nat × α)) (ocnt : Nat)
    (hsort : hq.Sorted hqKeyLE)
    (hnd : (hq.map Prod.fst).Nodup)
    (hlb : ∀ y ∈ hq, ocnt ≤ y.1) :
    ∃ e r, drainFlush hq ocnt = (r, ocnt + e.length, e) ∧
      hq = e ++ r ∧
      e.map Prod.fst = List.range' ocnt e.length ∧
      (∀ y ∈ r, ocnt + e.length < y.1) := by
  induction hq generalizing ocnt with
  | nil => exact ⟨[], [], rfl, rfl, rfl, by simp⟩
  | cons x rest ih =>
    rw [List.sorted_cons] at hsort
    rw [List.map_cons, List.nodup_cons] at hnd
    by_cases hx : x.1 = ocnt
    · have hlb' : ∀ y ∈ rest, ocnt + 1 ≤ y.1 := by
        intro y hy
        have h1 := hlb y (List.mem_cons_of_mem _ hy)
        have h2 : y.1 ≠ ocnt := by
          intro he
          apply hnd.1
          have hm : y.1 ∈ List.map Prod.fst rest := List.mem_map_of_mem Prod.fst hy
          rwa [he, ← hx] at hm
        omega
      obtain ⟨e, r, heq, hsplit, hids, hgt⟩ := ih (ocnt + 1) hsort.2 hnd.2 hlb'
      refine ⟨x :: e, r, ?_, by simp [hsplit], ?_, ?_⟩
      · simp only [drainFlush, hx, if_true, heq, List.length_cons]
        refine Prod.ext rfl (Prod.ext ?_ rfl)
        simp only
        omega
      · simp [hids, List.range'_succ, hx]
      · intro y hy
        have := hgt y hy
        simp only [List.length_cons]
        omega
    · refine ⟨[], x :: rest, ?_, rfl, rfl, ?_⟩
      · simp [drainFlush, hx]
      · intro y hy
        have hxlb := hlb x (by simp)
        have hxgt : ocnt < x.1 := by omega
        rcases List.mem_cons.mp hy with rfl | hy'
        · simpa using hxgt
        · have := hsort.1 y hy'
          simp only [List.length_nil, Nat.add_zero]
          exact lt_of_lt_of_le hxgt this

theorem mmDrainStep_inv (n : Nat) (st : DrainSt α) (pkt : Nat × α)
    (rest : List (Nat × α)) (h : DrainInv n st (pkt :: rest)) :
    DrainInv n (mmDrainStep st pkt) rest := by
  obtain ⟨hA, hB, hC, hD⟩ := h
  have hndAll : (((st.out ++ st.hq).map Prod.fst) ++ ((pkt :: rest).map Prod.fst)).Nodup :=
    hC.nodup_iff.mpr (List.nodup_range n)
  rw [List.nodup_append] at hndAll
  obtain ⟨hnd1, hnd2, hdisj⟩ := hndAll
  rw [List.map_append, List.nodup_append] at hnd1
  obtain ⟨hndOut, hndHq, hdisjOH⟩ := hnd1
  have hpp : (hqPush pkt st.hq).Perm (pkt :: st.hq) := List.perm_orderedInsert _ pkt st.hq
  have hpushSorted : (hqPush pkt st.hq).Sorted hqKeyLE := List.Sorted.orderedInsert pkt st.hq hB
  have hpktNotOut : pkt.1 ∉ st.out.map Prod.fst := by
    intro hmem
    have h1 : pkt.1 ∈ (st.out ++ st.hq).map Prod.fst := by
      rw [List.map_append]; exact List.mem_append.mpr (Or.inl hmem)
    have h2 : pkt.1 ∈ (pkt :: rest).map Prod.fst := by simp
    exact hdisj h1 h2
  have hpktNotHq : pkt.1 ∉ st.hq.map Prod.fst := by
    intro hmem
    have h1 : pkt.1 ∈ (st.out ++ st.hq).map Prod.fst := by
      rw [List.map_append]; exact List.mem_append.mpr (Or.inr hmem)
    have h2 : pkt.1 ∈ (pkt :: rest).map Prod.fst := by simp
    exact hdisj h1 h2
  have hmapPerm : ((hqPush pkt st.hq).map Prod.fst).Perm (pkt.1 :: st.hq.map Prod.fst) := by
    simpa using hpp.map Prod.fst
  have hndPush : ((hqPush pkt st.hq).map Prod.fst).Nodup :=
    hmapPerm.nodup_iff.mpr (List.nodup_cons.mpr ⟨hpktNotHq, hndHq⟩)
  have hlbPush : ∀ y ∈ hqPush pkt st.hq, st.ocnt ≤ y.1 := by
    intro y hy
    rcases List.mem_cons.mp (hpp.mem_iff.mp hy) with rfl | hy2
    · by_contra hlt
      push_neg at hlt
      exact hpktNotOut (by rw [hA]; exact List.mem_range.mpr hlt)
    · exact (hD y hy2).le
  obtain ⟨e, r, heq, hsplit, hids, hgt⟩ :=
    drainFlush_spec (hqPush pkt st.hq) st.ocnt hpushSorted hndPush hlbPush
  have hstep : mmDrainStep st pkt = ⟨r, st.ocnt + e.length, st.out ++ e⟩ := by
    simp [mmDrainStep, heq]
  rw [hstep]
  have hER : (e ++ r).Perm (pkt :: st.hq) := hsplit ▸ hpp
  have P : ((st.out ++ e ++ r) ++ rest).Perm ((st.out ++ st.hq) ++ (pkt :: rest)) := by
    have p1 : (st.out ++ e ++ r) ++ rest = st.out ++ ((e ++ r) ++ rest) := by
      simp [List.append_assoc]
    rw [p1]
    refine ((hER.append_right rest).append_left st.out).trans ?_
    have p2 : st.out ++ ((pkt :: st.hq) ++ rest) = st.out ++ pkt :: (st.hq ++ rest) := by simp
    rw [p2]
    refine List.perm_middle.trans ?_
    have p3 : pkt :: (st.out ++ (st.hq ++ rest)) = pkt :: ((st.out ++ st.hq) ++ rest) := by
      simp [List.append_assoc]
    rw [p3]
    exact List.perm_middle.symm
  refine ⟨?_, ?_, ?_, ?_⟩
  · show (st.out ++ e).map Prod.fst = List.range (st.ocnt + e.length)
    rw [List.map_append, hA, hids]
    have hra := List.range'_append 0 st.ocnt e.length 1
    simp only [Nat.zero_add, Nat.one_mul] at hra
    rw [List.range_eq_range', List.range_eq_range', hra, Nat.add_comm]
  · show r.Sorted hqKeyLE
    have hs := hsplit ▸ hpushSorted
    rw [List.Sorted, List.pairwise_append] at hs
    exact hs.2.1
  · show ((st.out ++ e ++ r).map Prod.fst ++ rest.map Prod.fst).Perm (List.range n)
    rw [← List.map_append]
    refine (P.map Prod.fst).trans ?_
    rw [List.map_append]
    exact hC
  · show ∀ y ∈ r, st.ocnt + e.length < y.1
    exact hgt

theorem drainInv_final (n : Nat) (st : DrainSt α) (h : DrainInv n st []) :
    st.out.map Prod.fst = List.range n := by
  obtain ⟨hA, hB, hC, hD⟩ := h
  have hC2 : ((st.out ++ st.hq).map Prod.fst).Perm (List.range n) := by simpa using hC
  have hocnt : n ≤ st.ocnt := by
    by_contra hlt
    push_neg at hlt
    have hm : st.ocnt ∈ (st.out ++ st.hq).map Prod.fst :=
      hC2.mem_iff.mpr (List.mem_range.mpr hlt)
    rw [List.map_append] at hm
    rcases List.mem_append.mp hm with h1 | h2
    · rw [hA] at h1
      exact absurd (List.mem_range.mp h1) (lt_irrefl _)
    · obtain ⟨y, hy, hyeq⟩ := List.mem_map.mp h2
      have := hD y hy
      omega
  have hlen := hC2.length_eq
  rw [List.length_map, List.length_append, List.length_range] at hlen
  have hout : st.out.length = st.ocnt := by
    have := congrArg List.length hA
    simpa using this
  have hhq : st.hq = [] := by
    have : st.hq.length = 0 := by omega
    exact List.length_eq_zero.mp this
  have hocnt2 : st.ocnt = n := by
    rw [hhq] at hlen
    simp at hlen
    omega
  rw [hA, hocnt2]

theorem mmDrainRun_inv (n : Nat) :
    ∀ (pkts : List (Nat × α)) (st : DrainSt α),
      DrainInv n st pkts → DrainInv n (pkts.foldl mmDrainStep st) [] := by
  intro pkts
  induction pkts with
  | nil => intro st h; exact h
  | cons p rest ih =>
    intro st h
    exact ih _ (mmDrainStep_inv n st p rest h)

/-- C8: for every run of the order-preserving drain whose packets carry the
ids `0..n-1` (in any completion order), the drain body observes the packets
in strictly ascending id order `0, 1, ..., n-1`; in particular the packet
with id `k` is observed before the packet with id `k+1`. -/
theorem mm_drain_observes_ids_in_order {α : Type} (n : Nat)
    (pkts : List (Nat × α))
    (hperm : (pkts.map Prod.fst).Perm (List.range n)) :
    (mmDrainRun pkts).out.map Prod.fst = List.range n := by
  apply drainInv_final n
  apply mmDrainRun_inv n pkts
  exact ⟨rfl, List.sorted_nil, by simpa using hperm, by simp⟩

/-- Witness for `mm_drain_observes_ids_in_order`: three packets completed
in the order 1, 0, 2 are handed to the drain body in id order 0, 1, 2. -/
theorem mm_drain_observes_ids_in_order_witness :
    (([(1, 10), (0, 20), (2, 30)].map Prod.fst).Perm (List.range 3)) ∧
    (mmDrainRun [(1, 10), (0, 20), (2, 30)]).out.map Prod.fst = List.range 3 :=
  ⟨by decide, mm_drain_observes_ids_in_order 3 [(1, 10), (0, 20), (2, 30)] (by decide)⟩

/-! ### Claims C3 and C4: the second-stage hash table -/

theorem khDist_lt (mask home i : Nat) (hh : home ≤ mask) (hi : i ≤ mask) :
    khDist mask home i < mask + 1 := by
  unfold khDist; split <;> omega

theorem khDist_spec (mask home i : Nat) (hh : home < mask + 1) (hi : i < mask + 1) :
    (home + khDist mask home i) % (mask + 1) = i := by
  unfold khDist
  split
  · rw [Nat.add_sub_cancel' (by omega)]
    exact Nat.mod_eq_of_lt hi
  · have : home + (i + (mask + 1) - home) = i + (mask + 1) := by omega
    rw [this, Nat.add_mod_right]
    exact Nat.mod_eq_of_lt hi

/-- Probing from `pos`: if the key sits `d` slots ahead and every slot
before it is occupied-or-moved with a different key, the probe returns the
stored value. -/
theorem khGetGo_found (a : List (Nat × Nat)) (mask key : Nat) :
    ∀ (d fuel pos : Nat), d < fuel → pos < mask + 1 →
    (a.getD ((pos + d) % (mask + 1)) (UMAX, UMAX)).1 = key →
    (∀ t < d, (a.getD ((pos + t) % (mask + 1)) (UMAX, UMAX)).1 ≠ key ∧
      (a.getD ((pos + t) % (mask + 1)) (UMAX, UMAX)).1 ≠ UMAX) →
    khGetGo a mask key fuel pos = some (a.getD ((pos + d) % (mask + 1)) (UMAX, UMAX)).2 := by
  intro d
  induction d with
  | zero =>
    intro fuel pos hfuel hpos hkey _
    match fuel, hfuel with
    | fuel + 1, _ =>
      have hmod : (pos + 0) % (mask + 1) = pos := by
        rw [Nat.add_zero]; exact Nat.mod_eq_of_lt hpos
      rw [hmod] at hkey ⊢
      rw [List.getD_eq_getElem?_getD] at hkey
      simp [khGetGo, hkey, List.getD_eq_getElem?_getD]
  | succ d ih =>
    intro fuel pos hfuel hpos hkey hpath
    match fuel, hfuel with
    | fuel + 1, hfuel =>
      have h0 := hpath 0 (Nat.succ_pos d)
      have hmod : (pos + 0) % (mask + 1) = pos := by
        rw [Nat.add_zero]; exact Nat.mod_eq_of_lt hpos
      rw [hmod] at h0
      have hshift : ∀ s : Nat, ((pos + 1) % (mask + 1) + s) % (mask + 1)
          = (pos + (s + 1)) % (mask + 1) := by
        intro s
        rw [Nat.mod_add_mod]
        have : pos + 1 + s = pos + (s + 1) := by omega
        rw [this]
      have ih2 := ih fuel ((pos + 1) % (mask + 1)) (by omega) (Nat.mod_lt _ (by omega))
      rw [hshift d] at ih2
      have ih3 := ih2 hkey (fun t ht => by
        rw [hshift t]
        exact hpath (t + 1) (by omega))
      simp only [khGetGo, if_neg h0.1, if_neg h0.2]
      exact ih3

/-- Probing from `pos`: if an empty slot sits `d` slots ahead and every
slot before it is occupied-or-moved with a different key, the probe misses. -/
theorem khGetGo_empty (a : List (Nat × Nat)) (mask key : Nat) (hne : key ≠ UMAX) :
    ∀ (d fuel pos : Nat), d < fuel → pos < mask + 1 →
    (a.getD ((pos + d) % (mask + 1)) (UMAX, UMAX)).1 = UMAX →
    (∀ t < d, (a.getD ((pos + t) % (mask + 1)) (UMAX, UMAX)).1 ≠ key ∧
      (a.getD ((pos + t) % (mask + 1)) (UMAX, UMAX)).1 ≠ UMAX) →
    khGetGo a mask key fuel pos = none := by
  intro d
  induction d with
  | zero =>
    intro fuel pos hfuel hpos hkey _
    match fuel, hfuel with
    | fuel + 1, _ =>
      have hmod : (pos + 0) % (mask + 1) = pos := by
        rw [Nat.add_zero]; exact Nat.mod_eq_of_lt hpos
      rw [hmod] at hkey
      have hnk : (a.getD pos (UMAX, UMAX)).1 ≠ key := by
        rw [hkey]; exact fun h => hne h.symm
      rw [List.getD_eq_getElem?_getD] at hkey hnk
      simp [khGetGo, hnk, hkey]
      exact fun h => hne h.symm
  | succ d ih =>
    intro fuel pos hfuel hpos hkey hpath
    match fuel, hfuel with
    | fuel + 1, hfuel =>
      have h0 := hpath 0 (Nat.succ_pos d)
      have hmod : (pos + 0) % (mask + 1) = pos := by
        rw [Nat.add_zero]; exact Nat.mod_eq_of_lt hpos
      rw [hmod] at h0
      have hshift : ∀ s : Nat, ((pos + 1) % (mask + 1) + s) % (mask + 1)
          = (pos + (s + 1)) % (mask + 1) := by
        intro s
        rw [Nat.mod_add_mod]
        have : pos + 1 + s = pos + (s + 1) := by omega
        rw [this]
      have ih2 := ih fuel ((pos + 1) % (mask + 1)) (by omega) (Nat.mod_lt _ (by omega))
      rw [hshift d] at ih2
      have ih3 := ih2 hkey (fun t ht => by
        rw [hshift t]
        exact hpath (t + 1) (by omega))
      simp only [khGetGo, if_neg h0.1, if_neg h0.2]
      exact ih3


theorem khDist_inv (mask home : Nat) (hh : home < mask + 1) :
    ∀ t < mask + 1, khDist mask home ((home + t) % (mask + 1)) = t := by
  intro t ht
  by_cases hc : home + t < mask + 1
  · rw [Nat.mod_eq_of_lt hc]
    unfold khDist
    split <;> omega
  · have h1 : (home + t) % (mask + 1) = home + t - (mask + 1) := by
      rw [Nat.mod_eq_sub_mod (by omega)]
      exact Nat.mod_eq_of_lt (by omega)
    rw [h1]
    unfold khDist
    split <;> omega

theorem khFind_of_cell (key : Nat) :
    ∀ (l : List (Nat × Nat)) (i : Nat), i < l.length →
    (l.getD i (UMAX, UMAX)).1 = key →
    (∀ j < l.length, (l.getD j (UMAX, UMAX)).1 = key → j = i) →
    (l.find? (fun c => c.1 == key)).map Prod.snd = some (l.getD i (UMAX, UMAX)).2 := by
  intro l
  induction l with
  | nil => intro i hi; simp at hi
  | cons c rest ih =>
    intro i hi hik huniq
    match i with
    | 0 =>
      simp only [List.getD_cons_zero] at hik ⊢
      rw [List.find?_cons_of_pos _ (by simpa using hik)]
      rfl
    | i + 1 =>
      have hc0 : c.1 ≠ key := by
        intro hc
        have := huniq 0 (by simp) (by simpa using hc)
        omega
      rw [List.find?_cons_of_neg _ (by simpa using hc0)]
      simp only [List.getD_cons_succ] at hik ⊢
      refine ih i (by simpa using hi) hik ?_
      intro j hj hjk
      have := huniq (j + 1) (by simpa using hj) (by simpa using hjk)
      omega

theorem khGet_eq_khFind (h : KhT) (hwf : khWF h) (key : Nat)
    (hkey : khOccupied key = true) :
    khGet h key = khFind h key := by
  obtain ⟨hlen, ⟨je, hje, hjeE⟩, hdistinct, hreach⟩ := hwf
  have hsz : 0 < h.mask + 1 := Nat.succ_pos _
  have hhome : key % (h.mask + 1) < h.mask + 1 := Nat.mod_lt _ hsz
  have hkeyU : key ≠ UMAX := by
    simp only [khOccupied, KMOVED, U64, UMAX, decide_eq_true_eq] at hkey ⊢
    omega
  by_cases hpres : ∃ i < h.a.length, (h.a.getD i (UMAX, UMAX)).1 = key
  · obtain ⟨i, hi, hik⟩ := hpres
    have hisz : i < h.mask + 1 := hlen ▸ hi
    set home := key % (h.mask + 1) with hhdef
    set d := khDist h.mask home i with hddef
    have hdlt : d < h.mask + 1 := khDist_lt _ _ _ (by omega) (by omega)
    have hspec : (home + d) % (h.mask + 1) = i := khDist_spec _ _ _ hhome hisz
    have hocc : khOccupied (h.a.getD i (UMAX, UMAX)).1 = true := by rw [hik]; exact hkey
    have hpath : ∀ t < d, (h.a.getD ((home + t) % (h.mask + 1)) (UMAX, UMAX)).1 ≠ key ∧
        (h.a.getD ((home + t) % (h.mask + 1)) (UMAX, UMAX)).1 ≠ UMAX := by
      intro t ht
      have hpt : (home + t) % (h.mask + 1) < h.mask + 1 := Nat.mod_lt _ hsz
      constructor
      · intro hcell
        have hne : (home + t) % (h.mask + 1) ≠ i := by
          intro heq
          have := khDist_inv h.mask home hhome t (by omega)
          rw [heq] at this
          omega
        have hoccp : khOccupied (h.a.getD ((home + t) % (h.mask + 1)) (UMAX, UMAX)).1 = true := by
          rw [hcell]; exact hkey
        have := hdistinct _ (hlen ▸ hpt) i hi hne hoccp
        rw [hcell, hik] at this
        exact this rfl
      · have := hreach i hi hocc
        rw [hik] at this
        exact this t ht
    have hget := khGetGo_found h.a h.mask key d (h.mask + 2) home (by omega) hhome
      (by rw [hspec]; exact hik) hpath
    rw [hspec] at hget
    have hfind := khFind_of_cell key h.a i hi hik (by
      intro j hj hjk
      by_contra hne
      have hoccj : khOccupied (h.a.getD j (UMAX, UMAX)).1 = true := by rw [hjk]; exact hkey
      have := hdistinct j hj i hi hne hoccj
      rw [hjk, hik] at this
      exact this rfl)
    unfold khGet khFind
    rw [hget, hfind]
  · push_neg at hpres
    have habs : ∀ j < h.a.length, (h.a.getD j (UMAX, UMAX)).1 ≠ key := hpres
    set home := key % (h.mask + 1) with hhdef
    have hjesz : je < h.mask + 1 := hlen ▸ hje
    have hPe : (h.a.getD ((home + khDist h.mask home je) % (h.mask + 1)) (UMAX, UMAX)).1
        = UMAX := by
      rw [khDist_spec _ _ _ hhome hjesz]
      exact hjeE
    have hex : ∃ t, (h.a.getD ((home + t) % (h.mask + 1)) (UMAX, UMAX)).1 = UMAX :=
      ⟨_, hPe⟩
    classical
    set d0 := Nat.find hex with hd0def
    have hd0 : (h.a.getD ((home + d0) % (h.mask + 1)) (UMAX, UMAX)).1 = UMAX :=
      Nat.find_spec hex
    have hd0le : d0 ≤ khDist h.mask home je := Nat.find_min' hex hPe
    have hd0lt : d0 < h.mask + 1 :=
      lt_of_le_of_lt hd0le (khDist_lt _ _ _ (by omega) (by omega))
    have hpath : ∀ t < d0, (h.a.getD ((home + t) % (h.mask + 1)) (UMAX, UMAX)).1 ≠ key ∧
        (h.a.getD ((home + t) % (h.mask + 1)) (UMAX, UMAX)).1 ≠ UMAX := by
      intro t ht
      have hpt : (home + t) % (h.mask + 1) < h.a.length := by
        rw [hlen]; exact Nat.mod_lt _ hsz
      exact ⟨habs _ hpt, Nat.find_min hex ht⟩
    have hget := khGetGo_empty h.a h.mask key hkeyU d0 (h.mask + 2) home (by omega)
      (Nat.mod_lt _ hsz) hd0 hpath
    have hfind : h.a.find? (fun c => c.1 == key) = none := by
      rw [List.find?_eq_none]
      intro c hc
      obtain ⟨j, hj, hjc⟩ := List.mem_iff_getElem.mp hc
      have := habs j hj
      rw [List.getD_eq_getElem?_getD] at this
      simp only [List.getElem?_eq_getElem hj, hjc, Option.getD_some] at this
      simpa using this
    unfold khGet khFind
    rw [hget, hfind]
    rfl


/-- C3 (amended): for every well-formed index and minimizer hash,
`mm_idx_get` selects bucket `h & mask`, looks up key `h >> b` in the
bucket of the second-stage table (absence meaning no cell of the table holds the
key); an absent key returns count 0, a value with clear high bit is a
single inline posting with count 1, and otherwise the count is the *low 32
bits of the value* and the posting-array base offset is the value bits
32..62* (low 31 bits of the high half). -/
theorem mm_idx_get_decodes (mi : MmIdx) (minier : Nat)
    (hmask : mi.mask = 2 ^ mi.b - 1)
    (hb : 0 < mi.b) (hmin : minier < U64)
    (hwf : ∀ bkt ∈ mi.bkt, ∀ h, bkt.kh = some h → khWF h) :
    mmIdxGet mi minier = mmIdxGetSpec mi minier := by
  have h2 : 2 ^ mi.b - 1 + 1 = 2 ^ mi.b :=
    Nat.sub_add_cancel Nat.one_le_two_pow
  have hbkt : minier &&& mi.mask = minier % (mi.mask + 1) := by
    rw [hmask, h2, Nat.and_pow_two_sub_one_eq_mod]
  have hkey2 : minier >>> mi.b = minier / 2 ^ mi.b := Nat.shiftRight_eq_div_pow _ _
  have h2b : 2 ≤ 2 ^ mi.b := by
    calc 2 = 2 ^ 1 := rfl
    _ ≤ 2 ^ mi.b := Nat.pow_le_pow_right (by omega) hb
  have hkocc : khOccupied (minier / 2 ^ mi.b) = true := by
    simp only [khOccupied, KMOVED, U64, decide_eq_true_eq]
    have ha : minier / 2 ^ mi.b ≤ minier / 2 := Nat.div_le_div_left h2b (by omega)
    simp only [U64] at hmin
    omega
  have hdec : ∀ v : Nat, (v >>> 32) &&& 0x7fffffff = v / U32 % 0x80000000 := by
    intro v
    have h31 : (0x7fffffff : Nat) = 2 ^ 31 - 1 := by norm_num
    rw [h31, Nat.and_pow_two_sub_one_eq_mod, Nat.shiftRight_eq_div_pow]
    norm_num [U32]
  simp only [mmIdxGet, mmIdxGetSpec, hbkt, hkey2]
  rcases hkh : (mi.bkt.getD (minier % (mi.mask + 1)) ⟨none, []⟩).kh with _ | h
  · simp only [hkh]
  · simp only [hkh]
    have hwfh : khWF h := by
      by_cases hlt : minier % (mi.mask + 1) < mi.bkt.length
      · refine hwf _ ?_ h hkh
        rw [List.getD_eq_getElem?_getD, List.getElem?_eq_getElem hlt]
        exact List.getElem_mem hlt
      · exfalso
        have hdef : mi.bkt.getD (minier % (mi.mask + 1)) ⟨none, []⟩ = ⟨none, []⟩ :=
          List.getD_eq_default _ _ (by omega)
        rw [hdef] at hkh
        simp at hkh
    rw [khGet_eq_khFind h hwfh _ hkocc]
    rcases khFind h (minier / 2 ^ mi.b) with _ | v
    · rfl
    · by_cases hv : v < 9223372036854775808
      · simp [hv]
      · simp [hv, hdec v]


/-- C4, code-bug evidence, evaluated on a concrete bucket: in a bucket whose
sorted minimizer array is five records of key 1 followed by two of key 2,
with `max_cnt = occ[n_occ-1] = 3`, the build drops *both* keys --- key 1
correctly (occurrence 5 > 3), but also key 2 (occurrence 2 ≤ 3), because
the skip branch of `mm_idx_build_hash` fails to advance the span start `q`,
so the span `q..p` never shrinks back below `max_cnt`.  The second conjunct
shows the same key-2 run in a bucket with no preceding over-threshold run:
it is stored as the claimed `(base<<32 | 1<<63 | count)` tuple with its two
postings contiguous at `p[1], p[2]`. -/
theorem mm_idx_build_hash_bug_eval :
    ((mmIdxBuildHashBucket
      [⟨1, 10, 2⟩, ⟨1, 20, 2⟩, ⟨1, 30, 2⟩, ⟨1, 40, 2⟩, ⟨1, 50, 2⟩, ⟨2, 60, 2⟩, ⟨2, 70, 2⟩]
      3).map (fun hr => (khGet hr.1 1, khGet hr.1 2)) = some (none, none)) ∧
    ((mmIdxBuildHashBucket [⟨2, 60, 2⟩, ⟨2, 70, 2⟩] 3).map
      (fun hr => (khGet hr.1 2, hr.2))
      = some (some (2 ^ 63 + 2 ^ 32 + 2), [2, 8589934652, 8589934662])) :=
  ⟨by decide, by decide⟩

/-- Counterexample to C3 as stated: on the index whose bucket 3 stores key 2
with two postings (value `1<<32 | 1<<63 | 2`), `mm_idx_get` returns count 2
(the low 32 bits of the value) and the slice at base 1 (bits 32..62), whereas the
decode of the claim --- count = low 31 bits of the high half, base = the high 32
bits --- yields count 1 at the out-of-range base `2^31 + 1`. -/
theorem mm_idx_get_claim_false :
    mmIdxGet exampleIdx 35 = (2, [8589934652, 8589934662]) ∧
    mmIdxGetClaim exampleIdx 35 = (1, []) ∧
    mmIdxGet exampleIdx 35 ≠ mmIdxGetClaim exampleIdx 35 :=
  ⟨by decide, by decide, by decide⟩

/-- Witness for `mm_idx_get_decodes` on the four-slot fixture index. -/
theorem mm_idx_get_decodes_witness :
    (tinyIdx.mask = 2 ^ tinyIdx.b - 1 ∧ 0 < tinyIdx.b ∧ 37 < U64 ∧
      (∀ bkt ∈ tinyIdx.bkt, ∀ h, bkt.kh = some h → khWF h)) ∧
    mmIdxGet tinyIdx 37 = mmIdxGetSpec tinyIdx 37 := by
  have hwf : ∀ bkt ∈ tinyIdx.bkt, ∀ h, bkt.kh = some h → khWF h := by
    have hall : ∀ b ∈ tinyIdx.bkt,
        (b.kh.map (fun t => decide (khWF t))).getD true = true := by decide
    intro bkt hmem h hkh
    have h1 := hall bkt hmem
    rw [hkh] at h1
    exact of_decide_eq_true (by simpa using h1)
  exact ⟨⟨by decide, by decide, by decide, hwf⟩,
    mm_idx_get_decodes tinyIdx 37 (by decide) (by decide) (by decide) hwf⟩

/-! ### Claim C6 -/

/-- The loop body builds exactly the claim's seed: the `uint32_t`
macro chain `_u`/`_v`/`_ofs` agrees with the arithmetic description. -/
theorem mmExpandSeed_eq_spec (k qs : Nat) (p : Posting) :
    mmExpandSeed k qs p = mmExpandSeedSpec k qs p := by
  unfold mmExpandSeed mmExpandSeedSpec
  rcases Nat.mod_two_eq_zero_or_one p.rid with h | h <;> simp [h, u32sub, U32]
  · constructor <;> omega
  · rw [Nat.and_pow_two_sub_one_eq_mod k 32]
    constructor <;> omega

/-- C6: `mm_expand` appends, for every posting that passes the
all-versus-all filter (`rid ≥ qid`), exactly the seed
`(u, v, rid, INT32_MAX)` with `u = 2·r' − q' + 2^30`,
`v = 2·q' − r' + 2^30` (32-bit wrapping), `r' = r + k·[s = rev]`,
`q' = q XOR (−s)`, and `rid` the strand-stripped reference id. -/
theorem mm_expand_stores_claimed_seeds (k qid qs : Nat) (acc : List MmSeed)
    (r : List Posting) :
    mmExpand k qid qs acc r
      = acc ++ (r.filter (fun p => qid ≤ p.rid)).map (mmExpandSeedSpec k qs) := by
  induction r generalizing acc with
  | nil => simp [mmExpand]
  | cons p rest ih =>
    by_cases h : p.rid < qid
    · have h' : ¬ qid ≤ p.rid := by omega
      simp [mmExpand, h, h', ih]
    · have h' : qid ≤ p.rid := by omega
      simp [mmExpand, h, h', ih, mmExpandSeed_eq_spec]

end Minialign

namespace Minialign

theorem chunkAt_append_of_le (pre rest : List PgPayload) (base ofs : Nat)
    (hpos : ∀ c ∈ pre, 0 < chunkSize c) (hofs : base + sizeSum pre ≤ ofs) :
    chunkAt (pre ++ rest) base ofs = chunkAt rest (base + sizeSum pre) ofs := by
  induction pre generalizing base with
  | nil => simp [sizeSum]
  | cons c pre ih =>
    have hc : 0 < chunkSize c := hpos c (by simp)
    have hsz : sizeSum (c :: pre) = chunkSize c + sizeSum pre := by
      simp [sizeSum]
    have hne : ofs ≠ base := by
      rw [hsz] at hofs; omega
    rw [List.cons_append]
    show chunkAt (c :: (pre ++ rest)) base ofs = _
    rw [chunkAt, if_neg hne]
    have := ih (base + chunkSize c) (fun x hx => hpos x (by simp [hx]))
      (by rw [hsz] at hofs; omega)
    rw [this, hsz]
    ring_nf

theorem chunkAt_recs (recs tail : List PgPayload) (base i : Nat)
    (hall : ∀ c ∈ recs, chunkSize c = 32) (hi : i < recs.length) :
    chunkAt (recs ++ tail) base (base + 32 * i) = recs[i]? := by
  induction recs generalizing base i with
  | nil => simp at hi
  | cons c recs ih =>
    cases i with
    | zero =>
      simp only [Nat.mul_zero, Nat.add_zero, List.cons_append]
      rw [chunkAt, if_pos rfl]
      simp
    | succ i =>
      have hne : base + 32 * (i + 1) ≠ base := by omega
      rw [List.cons_append, chunkAt, if_neg hne, hall c (by simp)]
      have := ih (base + 32) i (fun x hx => hall x (by simp [hx]))
        (by simpa using Nat.lt_of_succ_lt_succ hi)
      have harith : base + 32 * (i + 1) = base + 32 + 32 * i := by ring
      rw [harith, this]
      simp

theorem bktRecs_length (bs : List MmIdxBkt) (acc : Nat) :
    (mmIdxDumpBktRecs bs acc).1.length = bs.length := by
  induction bs generalizing acc with
  | nil => rfl
  | cons b bs ih =>
    rcases hk : b.kh with _ | h <;> simp [mmIdxDumpBktRecs, hk, ih]

theorem bktRecs_size32 (bs : List MmIdxBkt) (acc : Nat) :
    ∀ c ∈ (mmIdxDumpBktRecs bs acc).1, chunkSize c = 32 := by
  induction bs generalizing acc with
  | nil => simp [mmIdxDumpBktRecs]
  | cons b bs ih =>
    intro c hc
    rcases hk : b.kh with _ | h <;>
      simp only [mmIdxDumpBktRecs, hk, List.mem_cons] at hc <;>
      rcases hc with rfl | hc
    · rfl
    · exact ih _ c hc
    · rfl
    · exact ih _ c hc

theorem bktRecs_ofs_ge (bs : List MmIdxBkt) (acc : Nat) :
    ∀ r, PgPayload.bktRec (some r) ∈ (mmIdxDumpBktRecs bs acc).1 →
      acc ≤ r.khOfs ∧ acc ≤ r.pOfs := by
  induction bs generalizing acc with
  | nil => simp [mmIdxDumpBktRecs]
  | cons b bs ih =>
    intro r hr
    rcases hk : b.kh with _ | h <;>
      simp only [mmIdxDumpBktRecs, hk, List.mem_cons] at hr
    · rcases hr with hr | hr
      · exact absurd hr (by simp)
      · exact ih acc r hr
    · rcases hr with hr | hr
      · obtain rfl : r = ⟨h.mask, h.max, h.cnt, h.ub, acc, acc + 16 * (h.mask + 1)⟩ := by
          simpa using hr
        exact ⟨le_refl _, Nat.le_add_right _ _⟩
      · have := ih (acc + 16 * (h.mask + 1) + 8 * (b.p.getD 0 0 + 1)) r hr
        omega

end Minialign

namespace Minialign

theorem bktDumpWF_some {bkt : MmIdxBkt} {h : KhT} (hw : bktDumpWF bkt)
    (hk : bkt.kh = some h) :
    h.a.length = h.mask + 1 ∧ bkt.p.length = bkt.p.getD 0 0 + 1 := by
  obtain ⟨kh, p⟩ := bkt
  cases kh with
  | none => simp at hk
  | some h2 =>
    obtain rfl : h2 = h := by simpa using hk
    exact hw

theorem bktDumpWF_none {bkt : MmIdxBkt} (hw : bktDumpWF bkt)
    (hk : bkt.kh = none) : bkt.p = [] := by
  obtain ⟨kh, p⟩ := bkt
  cases kh with
  | none => exact hw
  | some h2 => simp at hk

end Minialign

namespace Minialign

theorem bktRecs_data_aligned (bs : List MmIdxBkt) (acc : Nat)
    (tail : List PgPayload) (hwf : ∀ bkt ∈ bs, bktDumpWF bkt) :
    ∀ i, i < bs.length →
      ((bs.getD i ⟨none, []⟩).kh = none →
        (mmIdxDumpBktRecs bs acc).1[i]? = some (.bktRec none)) ∧
      (∀ h, (bs.getD i ⟨none, []⟩).kh = some h →
        ∃ r : BktDump,
          (mmIdxDumpBktRecs bs acc).1[i]? = some (.bktRec (some r)) ∧
          r.khMask = h.mask ∧ r.khMax = h.max ∧ r.khCnt = h.cnt ∧
          r.khUb = h.ub ∧
          chunkAt (mmIdxDumpData bs ++ tail) acc r.khOfs =
            some (.khArr h.a) ∧
          chunkAt (mmIdxDumpData bs ++ tail) acc r.pOfs =
            some (.postArr (bs.getD i ⟨none, []⟩).p)) := by
  induction bs generalizing acc with
  | nil => intro i hi; simp at hi
  | cons b bs ih =>
    intro i hi
    rcases hk : b.kh with _ | h0
    · have hdata : mmIdxDumpData (b :: bs) = mmIdxDumpData bs := by
        simp [mmIdxDumpData, hk]
      have hrecs : (mmIdxDumpBktRecs (b :: bs) acc).1
          = .bktRec none :: (mmIdxDumpBktRecs bs acc).1 := by
        simp [mmIdxDumpBktRecs, hk]
      cases i with
      | zero =>
        refine ⟨fun _ => ?_, fun h hh => ?_⟩
        · rw [hrecs]; simp
        · rw [List.getD_cons_zero, hk] at hh
          simp at hh
      | succ i =>
        have hi' : i < bs.length := by simpa using Nat.lt_of_succ_lt_succ hi
        have IH := ih acc (fun x hx => hwf x (by simp [hx])) i hi'
        rw [hdata, hrecs]
        simpa using IH
    · have hw := bktDumpWF_some (hwf b (by simp)) hk
      have hdata : mmIdxDumpData (b :: bs)
          = .khArr h0.a :: .postArr b.p :: mmIdxDumpData bs := by
        simp [mmIdxDumpData, hk]
      have hrecs : (mmIdxDumpBktRecs (b :: bs) acc).1
          = .bktRec (some ⟨h0.mask, h0.max, h0.cnt, h0.ub, acc,
              acc + 16 * (h0.mask + 1)⟩)
            :: (mmIdxDumpBktRecs bs
                 (acc + 16 * (h0.mask + 1) + 8 * (b.p.getD 0 0 + 1))).1 := by
        simp [mmIdxDumpBktRecs, hk]
      cases i with
      | zero =>
        refine ⟨fun hnone => ?_, fun h hh => ?_⟩
        · rw [List.getD_cons_zero, hk] at hnone
          simp at hnone
        · rw [List.getD_cons_zero] at hh ⊢
          rw [hk] at hh
          obtain rfl : h0 = h := by simpa using hh
          refine ⟨⟨h0.mask, h0.max, h0.cnt, h0.ub, acc,
              acc + 16 * (h0.mask + 1)⟩, ?_, rfl, rfl, rfl, rfl, ?_, ?_⟩
          · rw [hrecs]; simp
          · rw [hdata]
            simp only [List.cons_append]
            rw [chunkAt, if_pos rfl]
          · rw [hdata]
            simp only [List.cons_append]
            have hne1 : acc + 16 * (h0.mask + 1) ≠ acc := by omega
            rw [chunkAt, if_neg hne1]
            have hcs : chunkSize (PgPayload.khArr h0.a) = 16 * (h0.mask + 1) := by
              simp [chunkSize, hw.1]
            rw [hcs, chunkAt, if_pos rfl]
      | succ i =>
        have hi' : i < bs.length := by simpa using Nat.lt_of_succ_lt_succ hi
        have IH := ih (acc + 16 * (h0.mask + 1) + 8 * (b.p.getD 0 0 + 1))
          (fun x hx => hwf x (by simp [hx])) i hi'
        have hpos : ∀ c ∈ [PgPayload.khArr h0.a, PgPayload.postArr b.p],
            0 < chunkSize c := by
          intro c hc
          rcases List.mem_cons.mp hc with rfl | hc
          · have := hw.1; simp [chunkSize]; omega
          · rcases List.mem_cons.mp hc with rfl | hc
            · have := hw.2; simp [chunkSize]; omega
            · simp at hc
        have hsz : sizeSum [PgPayload.khArr h0.a, PgPayload.postArr b.p]
            = 16 * (h0.mask + 1) + 8 * (b.p.getD 0 0 + 1) := by
          simp [sizeSum, chunkSize, hw.1, hw.2]
        have htrans : ∀ ofs,
            acc + 16 * (h0.mask + 1) + 8 * (b.p.getD 0 0 + 1) ≤ ofs →
            chunkAt (mmIdxDumpData (b :: bs) ++ tail) acc ofs
              = chunkAt (mmIdxDumpData bs ++ tail)
                  (acc + 16 * (h0.mask + 1) + 8 * (b.p.getD 0 0 + 1)) ofs := by
          intro ofs hofs
          rw [hdata]
          have hassoc : (PgPayload.khArr h0.a :: PgPayload.postArr b.p
                :: mmIdxDumpData bs) ++ tail
              = [PgPayload.khArr h0.a, PgPayload.postArr b.p]
                ++ (mmIdxDumpData bs ++ tail) := by
            simp
          rw [hassoc, chunkAt_append_of_le _ _ _ _ hpos (by rw [hsz]; omega),
            hsz]
          have harith : acc + (16 * (h0.mask + 1) + 8 * (b.p.getD 0 0 + 1))
              = acc + 16 * (h0.mask + 1) + 8 * (b.p.getD 0 0 + 1) := by omega
          rw [harith]
        constructor
        · intro hnone
          rw [List.getD_cons_succ] at hnone
          have h1 := IH.1 hnone
          rw [hrecs]
          simpa using h1
        · intro h hh
          rw [List.getD_cons_succ] at hh
          obtain ⟨r, hr1, hr2, hr3, hr4, hr5, hr6, hr7⟩ := IH.2 h hh
          have hmem : PgPayload.bktRec (some r)
              ∈ (mmIdxDumpBktRecs bs
                  (acc + 16 * (h0.mask + 1) + 8 * (b.p.getD 0 0 + 1))).1 :=
            List.getElem?_mem hr1
          have hge := bktRecs_ofs_ge bs
            (acc + 16 * (h0.mask + 1) + 8 * (b.p.getD 0 0 + 1)) r hmem
          refine ⟨r, ?_, hr2, hr3, hr4, hr5, ?_, ?_⟩
          · rw [hrecs]; simpa using hr1
          · rw [htrans r.khOfs hge.1]; exact hr6
          · rw [List.getD_cons_succ, htrans r.pOfs hge.2]; exact hr7

end Minialign

namespace Minialign

theorem sizeSum_cons (c : PgPayload) (l : List PgPayload) :
    sizeSum (c :: l) = chunkSize c + sizeSum l := by
  simp [sizeSum]

theorem sizeSum_append (a b : List PgPayload) :
    sizeSum (a ++ b) = sizeSum a + sizeSum b := by
  simp [sizeSum]

theorem sizeSum_const32 :
    ∀ l : List PgPayload, (∀ c ∈ l, chunkSize c = 32) →
      sizeSum l = 32 * l.length := by
  intro l
  induction l with
  | nil => intro _; rfl
  | cons c l ih =>
    intro h
    rw [sizeSum_cons, h c (by simp), ih (fun x hx => h x (by simp [hx]))]
    simp only [List.length_cons]
    ring

theorem sizeSum_data :
    ∀ bs : List MmIdxBkt, (∀ bkt ∈ bs, bktDumpWF bkt) →
      sizeSum (mmIdxDumpData bs)
        = (bs.map fun b =>
            match b.kh with
            | none => 0
            | some h => 16 * (h.mask + 1) + 8 * (b.p.getD 0 0 + 1)).sum := by
  intro bs
  induction bs with
  | nil => intro _; rfl
  | cons b bs ih =>
    intro h
    have ihb := ih (fun x hx => h x (by simp [hx]))
    rcases hk : b.kh with _ | h0
    · have hdata : mmIdxDumpData (b :: bs) = mmIdxDumpData bs := by
        simp [mmIdxDumpData, hk]
      rw [hdata, ihb, List.map_cons, List.sum_cons]
      simp [hk]
    · have hw := bktDumpWF_some (h b (by simp)) hk
      have hdata : mmIdxDumpData (b :: bs)
          = .khArr h0.a :: .postArr b.p :: mmIdxDumpData bs := by
        simp [mmIdxDumpData, hk]
      rw [hdata, sizeSum_cons, sizeSum_cons, ihb, List.map_cons,
        List.sum_cons]
      simp only [hk, chunkSize, hw.1, hw.2]
      ring

theorem mapM_eq_some_map {β2 α2 : Type} (l : List β2) (f : β2 → Option α2)
    (g : β2 → α2) (h : ∀ x ∈ l, f x = some (g x)) :
    l.mapM f = some (l.map g) := by
  induction l with
  | nil => rfl
  | cons x l ih =>
    rw [List.mapM_cons, h x (by simp), ih (fun y hy => h y (by simp [hy]))]
    rfl

theorem map_getD_range {γ : Type} (l : List γ) (d : γ) :
    (List.range l.length).map (fun i => l.getD i d) = l := by
  apply List.ext_getElem
  · simp
  · intro i h1 h2
    simp only [List.getElem_map, List.getElem_range,
      List.getD_eq_getElem?_getD, List.getElem?_eq_getElem h2,
      Option.getD_some]

end Minialign

namespace Minialign

/-- Claim C2: for every well-formed built index `mi`, `mm_idx_load` applied
to the slab written by `mm_idx_dump(mi)` succeeds and yields an index with
the same bucket array (hence every `mm_idx_get` lookup returns the same
posting count and the same posting list contents as on the original
index); moreover the slab size written in the header matches the slab. -/
theorem mm_idx_dump_load_roundtrip (mi : MmIdx) (memSizes : List Nat)
    (hwf : mmIdxDumpWF mi) :
    ∃ mi2, mmIdxLoad (mmIdxDumpStream mi memSizes) = some mi2 ∧
      mi2.mask = mi.mask ∧ mi2.b = mi.b ∧ mi2.bkt = mi.bkt ∧
      (∀ h, mmIdxGet mi2 h = mmIdxGet mi h) ∧
      sizeSum (mmIdxDumpStream mi memSizes)
        = mmIdxDumpCalcSize mi memSizes := by
  obtain ⟨hlen, hball⟩ := hwf
  set dataOfs := 64 + 32 * 2 ^ mi.b + 24 * mi.n_seq with hdataOfs
  set recs := (mmIdxDumpBktRecs mi.bkt dataOfs).1 with hrecsdef
  set seqs : List PgPayload := List.replicate mi.n_seq .seqRec with hseqsdef
  set data := mmIdxDumpData mi.bkt with hdatadef
  set mems := memSizes.map PgPayload.mem with hmemsdef
  set hd : PgPayload := .hdr mi.mask mi.b mi.w mi.k mi.n_occ mi.occ mi.n_seq
    mi.mono 64 (64 + 32 * 2 ^ mi.b) with hhd
  have hstream : mmIdxDumpStream mi memSizes
      = hd :: (recs ++ seqs ++ data ++ mems) := rfl
  have hch64 : chunkSize hd = 64 := by rw [hhd]; rfl
  have hrlen : recs.length = 2 ^ mi.b := by
    rw [hrecsdef, bktRecs_length, hlen]
  have hr32 : ∀ c ∈ recs, chunkSize c = 32 := bktRecs_size32 mi.bkt dataOfs
  have hrsz : sizeSum recs = 32 * 2 ^ mi.b := by
    rw [sizeSum_const32 recs hr32, hrlen]
  have hseqsz : sizeSum seqs = 24 * mi.n_seq := by
    rw [hseqsdef]
    simp [sizeSum, List.map_replicate, List.sum_replicate, chunkSize,
      smul_eq_mul, Nat.mul_comm]
  have hpresz : sizeSum (hd :: (recs ++ seqs)) = dataOfs := by
    rw [sizeSum_cons, sizeSum_append, hch64, hrsz, hseqsz, hdataOfs]
    ring
  have hprepos : ∀ c ∈ hd :: (recs ++ seqs), 0 < chunkSize c := by
    intro c hc
    rcases List.mem_cons.mp hc with rfl | hc
    · rw [hch64]; omega
    · rcases List.mem_append.mp hc with hc | hc
      · rw [hr32 c hc]; omega
      · rw [hseqsdef] at hc
        rw [List.eq_of_mem_replicate hc]
        simp [chunkSize]
  have hhdat : chunkAt (mmIdxDumpStream mi memSizes) 0 0 = some hd := by
    rw [hstream, chunkAt, if_pos rfl]
  have hdtrans : ∀ ofs, dataOfs ≤ ofs →
      chunkAt (mmIdxDumpStream mi memSizes) 0 ofs
        = chunkAt (data ++ mems) dataOfs ofs := by
    intro ofs hofs
    rw [hstream]
    have h2 : hd :: (recs ++ seqs ++ data ++ mems)
        = (hd :: (recs ++ seqs)) ++ (data ++ mems) := by
      simp [List.append_assoc]
    rw [h2, chunkAt_append_of_le _ _ _ _ hprepos (by rw [hpresz]; omega)]
    rw [hpresz]
    simp
  have hload : ∀ i, i < 2 ^ mi.b →
      mmIdxLoadBkt (mmIdxDumpStream mi memSizes) 64 i
        = some (mi.bkt.getD i ⟨none, []⟩) := by
    intro i hi
    have hi' : i < mi.bkt.length := by rw [hlen]; exact hi
    have halign := bktRecs_data_aligned mi.bkt dataOfs mems hball i hi'
    have hrec : chunkAt (mmIdxDumpStream mi memSizes) 0 (64 + 32 * i)
        = recs[i]? := by
      rw [hstream]
      have h1 : recs ++ seqs ++ data ++ mems
          = recs ++ (seqs ++ data ++ mems) := by
        simp [List.append_assoc]
      rw [h1, chunkAt, if_neg (by omega)]
      have hb64 : (0 : Nat) + chunkSize hd = 64 := by rw [hch64]
      rw [hb64]
      exact chunkAt_recs _ _ 64 i hr32 (by rw [hrlen]; exact hi)
    rcases hbk : (mi.bkt.getD i ⟨none, []⟩).kh with _ | h0
    · have hr1 := halign.1 hbk
      rw [← hrecsdef] at hr1
      have hmem : mi.bkt.getD i ⟨none, []⟩ ∈ mi.bkt := by
        rw [List.getD_eq_getElem?_getD, List.getElem?_eq_getElem hi']
        exact List.getElem_mem hi'
      have hpnil := bktDumpWF_none (hball _ hmem) hbk
      have hgd : mi.bkt.getD i ⟨none, []⟩ = ⟨none, []⟩ := by
        rcases hg : mi.bkt.getD i ⟨none, []⟩ with ⟨kh2, p2⟩
        rw [hg] at hbk hpnil
        simp only at hbk hpnil
        rw [hbk, hpnil]
      rw [mmIdxLoadBkt, hrec, hr1, hgd]
    · obtain ⟨r, hr1, hm, hx, hc, hu, hkh, hp⟩ := halign.2 h0 hbk
      rw [← hrecsdef] at hr1
      rw [← hdatadef] at hkh hp
      have hge := bktRecs_ofs_ge mi.bkt dataOfs r
        (by rw [hrecsdef] at hr1; exact List.getElem?_mem hr1)
      have hkh2 : chunkAt (mmIdxDumpStream mi memSizes) 0 r.khOfs
          = some (.khArr h0.a) := by
        rw [hdtrans r.khOfs hge.1]; exact hkh
      have hp2 : chunkAt (mmIdxDumpStream mi memSizes) 0 r.pOfs
          = some (.postArr (mi.bkt.getD i ⟨none, []⟩).p) := by
        rw [hdtrans r.pOfs hge.2]; exact hp
      obtain ⟨p2, hg⟩ : ∃ p2, mi.bkt.getD i ⟨none, []⟩ = ⟨some h0, p2⟩ := by
        rcases hg : mi.bkt.getD i ⟨none, []⟩ with ⟨kh2, pp⟩
        rw [hg] at hbk
        simp only at hbk
        exact ⟨pp, by rw [hbk]⟩
      rw [hg] at hp2 ⊢
      simp only at hp2
      rw [mmIdxLoadBkt, hrec, hr1]
      simp only [hkh2, hp2, hm, hx, hc, hu]
  have hmapM : (List.range (2 ^ mi.b)).mapM
        (mmIdxLoadBkt (mmIdxDumpStream mi memSizes) 64)
      = some ((List.range (2 ^ mi.b)).map
          (fun i => mi.bkt.getD i ⟨none, []⟩)) :=
    mapM_eq_some_map _ _ _ (fun i hi => hload i (List.mem_range.mp hi))
  have hmap : (List.range (2 ^ mi.b)).map (fun i => mi.bkt.getD i ⟨none, []⟩)
      = mi.bkt := by
    conv_lhs => rw [← hlen]
    exact map_getD_range mi.bkt ⟨none, []⟩
  refine ⟨⟨mi.mask, mi.b, mi.w, mi.k, mi.n_occ, mi.occ, mi.n_seq, 1, mi.bkt⟩,
    ?_, rfl, rfl, rfl, fun h => rfl, ?_⟩
  · rw [mmIdxLoad, hhdat, hhd]
    simp only [hmapM, hmap]
  · rw [hstream, sizeSum_cons, sizeSum_append, sizeSum_append,
      sizeSum_append, hch64, hrsz, hseqsz, sizeSum_data mi.bkt hball]
    have hmemsz : sizeSum mems = memSizes.sum := by
      rw [hmemsdef, sizeSum, List.map_map]
      have hcomp : chunkSize ∘ PgPayload.mem = id := by
        funext x; rfl
      rw [hcomp, List.map_id]
    rw [hmemsz, mmIdxDumpCalcSize]
    ring

end Minialign

namespace Minialign

/-- Witness for the round-trip theorem at the concrete fixture `dumpIdx`
with a single 40-byte sequence memory block. -/
theorem mm_idx_dump_load_roundtrip_witness :
    ∃ mi2, mmIdxLoad (mmIdxDumpStream dumpIdx [40]) = some mi2 ∧
      mi2.mask = dumpIdx.mask ∧ mi2.b = dumpIdx.b ∧ mi2.bkt = dumpIdx.bkt ∧
      (∀ h, mmIdxGet mi2 h = mmIdxGet dumpIdx h) ∧
      sizeSum (mmIdxDumpStream dumpIdx [40])
        = mmIdxDumpCalcSize dumpIdx [40] :=
  mm_idx_dump_load_roundtrip dumpIdx [40] (by decide)

end Minialign

namespace Minialign


/-! ### Claim C1 -/

theorem skRunGuard_eq_skRun (w k : Nat) (r : List Nat) :
    ∀ (cs : List Nat) (i : Nat) (s : SkLoop), i + cs.length ≤ w →
      skRunGuard w k r i s cs = (skRun k r i s cs).1 := by
  intro cs
  induction cs with
  | nil => intro i s _; rfl
  | cons c cs ih =>
    intro i s h
    rw [skRunGuard, skRun]
    rw [if_pos (by simp at h; omega)]
    exact ih (i + 1) _ (by simp at h; omega)

theorem skDoBlocks_snoc (w k : Nat) :
    ∀ (n : Nat) (X B : List Nat) (st : SkSt), X.length = n * w →
      skDoBlocks w k (n + 1) (X ++ B) st
        = skBlockOnce w k (B.take w) (skDoBlocks w k n X st) := by
  intro n
  induction n with
  | zero =>
    intro X B st hX
    have hnil : X = [] := List.length_eq_zero.mp (by simpa using hX)
    subst hnil
    simp [skDoBlocks]
  | succ n ih =>
    intro X B st hX
    have hmul : (n + 1) * w = n * w + w := by ring
    have hw_le : w ≤ X.length := by rw [hX, hmul]; omega
    rw [skDoBlocks, List.take_append_of_le_length hw_le,
      List.drop_append_of_le_length hw_le]
    have hlen2 : (X.drop w).length = n * w := by
      rw [List.length_drop, hX, hmul]; omega
    rw [ih _ _ _ hlen2]
    conv_rhs => rw [skDoBlocks]



theorem mmSketchCap_nil (w k ci : Nat) (st : SkSt) :
    (mmSketchCap w k ci st []).1.out = st.out := by
  rw [mmSketchCap]
  simp only [List.take_nil, skRunGuard]

/-- Claim C1 (amended): if the split point is block-aligned, i.e. the
prefix A covers the k-1 priming bases plus a whole number of w-blocks, and
the continuation B is at most one block long, then sketching A and
resuming on B via the cap record emits exactly the same minimizer stream
as sketching A ++ B in one call (cap records excluded on both sides). -/
theorem mm_sketch_split_aligned (w k : Nat) (A B r0 : List Nat)
    (hw : 0 < w) (hw32 : w < 32)
    (hA : k - 1 ≤ A.length)
    (halign : (A.length - (k - 1)) % w = 0)
    (hB : B.length ≤ w) :
    (mmSketch w k (A ++ B) r0).1.out
      = (mmSketchCap w k (mmSketch w k A r0).2 (mmSketch w k A r0).1 B).1.out := by
  obtain ⟨m, hm⟩ : ∃ m, (A.drop (k - 1)).length = w * m := by
    refine Nat.dvd_of_mod_eq_zero ?_
    rw [List.length_drop]
    exact halign
  have hdivA : (A.drop (k - 1)).length / w = m := by
    rw [hm]; exact Nat.mul_div_cancel_left m hw
  have hmodA : (A.drop (k - 1)).length % w = 0 := by
    rw [hm]; exact Nat.mul_mod_right w m
  have htakeA : (A.drop (k - 1)).take (m * w) = A.drop (k - 1) := by
    rw [Nat.mul_comm, ← hm]; exact (A.drop (k - 1)).take_length
  have hpre : (A ++ B).take (k - 1) = A.take (k - 1) :=
    List.take_append_of_le_length hA
  have hrest : (A ++ B).drop (k - 1) = A.drop (k - 1) ++ B :=
    List.drop_append_of_le_length hA
  have hsketchA : mmSketch w k A r0
      = (skDoBlocks w k m (A.drop (k - 1))
          ⟨r0, 0,
            ((A.take (k - 1)).foldl (fun p c => skPushKmer k p.1 p.2 c)
              (0, 0)).1,
            ((A.take (k - 1)).foldl (fun p c => skPushKmer k p.1 p.2 c)
              (0, 0)).2, []⟩, 0) := by
    rw [mmSketch]
    simp only [hdivA, hmodA, htakeA, if_pos]
  have hu64 : u64sub w 0 = w := by
    rw [u64sub]
    simp only [U64, Nat.zero_mod, Nat.sub_zero]
    omega
  rw [hsketchA]
  rcases Nat.lt_or_ge B.length w with hblt | hbge
  · rcases Nat.eq_zero_or_pos B.length with hb0 | hbpos
    · have hBnil : B = [] := List.length_eq_zero.mp hb0
      subst hBnil
      rw [List.append_nil, mmSketchCap_nil, hsketchA]
    · have hlenS : ((A ++ B).drop (k - 1)).length = w * m + B.length := by
        rw [hrest, List.length_append, hm]
      have hdivS : ((A ++ B).drop (k - 1)).length / w = m := by
        rw [hlenS, Nat.mul_add_div hw, Nat.div_eq_of_lt hblt]
        rfl
      have hmodS : ((A ++ B).drop (k - 1)).length % w = B.length := by
        rw [hlenS, Nat.mul_add_mod, Nat.mod_eq_of_lt hblt]
      have htakeS : ((A ++ B).drop (k - 1)).take (m * w)
          = A.drop (k - 1) := by
        rw [hrest, List.take_append_of_le_length
          (by rw [hm]; exact Nat.le_of_eq (Nat.mul_comm m w)), htakeA]
      have hdropS : ((A ++ B).drop (k - 1)).drop (m * w) = B := by
        rw [hrest, List.drop_append_of_le_length
          (by rw [hm]; exact Nat.le_of_eq (Nat.mul_comm m w)),
          Nat.mul_comm, ← hm, (A.drop (k - 1)).drop_length, List.nil_append]
      rw [mmSketch]
      simp only [hpre, hdivS, hmodS, htakeS, hdropS,
        if_neg (Nat.pos_iff_ne_zero.mp hbpos)]
      rw [mmSketchCap]
      simp only [hu64, Nat.min_eq_left (Nat.le_of_lt hblt), B.take_length]
      rw [skRunGuard_eq_skRun w k _ B 0 _ (by omega)]
      simp [skTail]
  · have hbw : B.length = w := Nat.le_antisymm hB hbge
    have hlenS : ((A ++ B).drop (k - 1)).length = w * (m + 1) := by
      rw [hrest, List.length_append, hm, hbw]; ring
    have hdivS : ((A ++ B).drop (k - 1)).length / w = m + 1 := by
      rw [hlenS]; exact Nat.mul_div_cancel_left (m + 1) hw
    have hmodS : ((A ++ B).drop (k - 1)).length % w = 0 := by
      rw [hlenS]; exact Nat.mul_mod_right w (m + 1)
    have htakeS : ((A ++ B).drop (k - 1)).take ((m + 1) * w)
        = A.drop (k - 1) ++ B := by
      rw [hrest]
      have hlen2 : (A.drop (k - 1) ++ B).length = (m + 1) * w := by
        rw [List.length_append, hm, hbw]; ring
      rw [← hlen2]
      exact (A.drop (k - 1) ++ B).take_length
    rw [mmSketch]
    simp only [hpre, hdivS, hmodS, htakeS, if_pos]
    rw [skDoBlocks_snoc w k m _ B _ (by rw [hm]; ring)]
    rw [mmSketchCap]
    simp only [hu64, hbw, Nat.min_self]
    have hBw : B.take w = B := by rw [← hbw]; exact B.take_length
    rw [hBw, skRunGuard_eq_skRun w k _ B 0 _ (by omega)]
    simp [skBlockOnce]



set_option maxRecDepth 100000 in
/-- Claim C1 counterexample: with w = 2, k = 2 and the sequence split as
A = [0,1,2,3], B = [1,0] (split point 4 >= k, but the A block part has odd
length so the split is not block-aligned), the full-sequence sketch emits
[256, 384, 1024] while sketching A and resuming on B via the cap record
emits [256, 384, 386]: the streams differ even after removing cap
records.  The tail branch of mm_sketch re-bases the block-local index
fields, so resumed emissions carry indices shifted by the remainder
length. -/
theorem mm_sketch_claim_false :
    (2 : Nat) ≤ ([0, 1, 2, 3] : List Nat).length ∧
    (mmSketch 2 2 ([0, 1, 2, 3] ++ [1, 0]) r64).1.out = [256, 384, 1024] ∧
    (mmSketchCap 2 2 (mmSketch 2 2 [0, 1, 2, 3] r64).2
        (mmSketch 2 2 [0, 1, 2, 3] r64).1 [1, 0]).1.out
      = [256, 384, 386] := by
  refine ⟨by decide, by decide, by decide⟩

set_option maxRecDepth 100000 in
/-- Witness for the aligned split theorem: w = 2, k = 2, A = [0,1,2,3,1]
(one priming base plus two blocks), B = [1,0] (one full block). -/
theorem mm_sketch_split_aligned_witness :
    (0 < 2 ∧ 2 < 32 ∧ 2 - 1 ≤ ([0, 1, 2, 3, 1] : List Nat).length ∧
      (([0, 1, 2, 3, 1] : List Nat).length - (2 - 1)) % 2 = 0 ∧
      ([1, 0] : List Nat).length ≤ 2) ∧
    (mmSketch 2 2 ([0, 1, 2, 3, 1] ++ [1, 0]) r64).1.out
      = (mmSketchCap 2 2 (mmSketch 2 2 [0, 1, 2, 3, 1] r64).2
          (mmSketch 2 2 [0, 1, 2, 3, 1] r64).1 [1, 0]).1.out :=
  ⟨⟨by decide, by decide, by decide, by decide, by decide⟩,
    mm_sketch_split_aligned 2 2 [0, 1, 2, 3, 1] [1, 0] r64 (by decide)
      (by decide) (by decide) (by decide) (by decide)⟩

end Minialign
